import Mathlib

/-!
Verification of qc.rs (a QuickCheck-style property testing library) against
its specification.  The Rust sources `src/qc.rs`, `src/shrink.rs` and
`src/lazy.rs` are shallowly embedded below:

* `QConfig`, `config` and the field setters mirror `src/qc.rs` lines 45-72.
* `quickShrink`, `quickCheck`, `quickCheckOccurs` mirror the runner functions
  in `src/qc.rs` lines 96-151; the random generation of trial values is
  abstracted by an oracle `gen : Nat → Nat → A` giving the value drawn at a
  given trial index for a given size (the real code consumes a RNG), and the
  unbounded recursion of `quick_shrink` is made total with a fuel parameter
  (exhausted fuel returns `none`).
* `mpowers_of_two`, `shrink_uint` mirror `src/shrink.rs` lines 26-57.
* `Eval`/`Lazy` mirror `src/lazy.rs`: a thunk's effect (the values it pushes
  and the further thunks it enqueues) is recorded as a finite tree, and
  `Lazy.next` replays exactly the queue discipline of `Lazy::next`.
-/

namespace Qc

/-- `QConfig` from src/qc.rs: the four test-configuration knobs. -/
structure QConfig where
  trials : Nat
  size : Nat
  verbose : Bool
  grow : Bool
  deriving Repr, DecidableEq

/-- The default `config` static from src/qc.rs line 53. -/
def config : QConfig := { trials := 25, size := 8, verbose := false, grow := true }

/-- `QConfig::size` setter. -/
def QConfig.size' (c : QConfig) (x : Nat) : QConfig := { c with size := x }

/-- `QConfig::trials` setter. -/
def QConfig.trials' (c : QConfig) (x : Nat) : QConfig := { c with trials := x }

/-- `QConfig::grow` setter. -/
def QConfig.grow' (c : QConfig) (x : Bool) : QConfig := { c with grow := x }

/-- `QConfig::verbose` setter. -/
def QConfig.verbose' (c : QConfig) (x : Bool) : QConfig := { c with verbose := x }

/-- The size passed to `arbitrary` on trial `i` in `quick_check` and
`quick_check_occurs`: `cfg.size + if cfg.grow { i / 8 } else { 0 }`. -/
def trialSize (cfg : QConfig) (i : Nat) : Nat :=
  cfg.size + if cfg.grow then i / 8 else 0

/-- One pass of the `loop` in `quick_shrink`: the shrink vector is consumed by
`pop()` from the back, so we scan the reversed candidate list for the first
candidate falsifying `prop`. -/
def firstFalsifying (prop : A → Bool) (l : List A) : Option A :=
  l.find? (fun c => !prop c)

/-- `quick_shrink` from src/qc.rs lines 116-134, generic over the `shrink`
method of `Arbitrary` (`shr`).  The Rust recursion has no termination
guarantee, so a fuel parameter is added; `none` means fuel ran out. -/
def quickShrink (shr : A → List A) (prop : A → Bool) : Nat → A → Option A
  | 0, _ => none
  | fuel + 1, value =>
    match firstFalsifying prop (shr value).reverse with
    | none => some value
    | some elt => quickShrink shr prop fuel elt

/-- The loop of `quick_check` from src/qc.rs lines 96-114, returning both the
list of values actually generated and tested, and the outcome.  On failure the
error carries the 1-based trial count and the shrunk counterexample (the
`fail!` message).  `i` is the current trial index, the second argument the
number of trials left. -/
def quickCheckAux (cfg : QConfig) (gen : Nat → Nat → A) (shr : A → List A)
    (prop : A → Bool) (fuel : Nat) (i : Nat) : Nat → List A × Except (Nat × Option A) Unit
  | 0 => ([], .ok ())
  | rem + 1 =>
    let value := gen i (trialSize cfg i)
    if prop value then
      let rest := quickCheckAux cfg gen shr prop fuel (i + 1) rem
      (value :: rest.1, rest.2)
    else
      ([value], .error (1 + i, quickShrink shr prop fuel value))

/-- `quick_check`: run `cfg.trials` trials from index 0. -/
def quickCheck (cfg : QConfig) (gen : Nat → Nat → A) (shr : A → List A)
    (prop : A → Bool) (fuel : Nat) : List A × Except (Nat × Option A) Unit :=
  quickCheckAux cfg gen shr prop fuel 0 cfg.trials

/-- The loop of `quick_check_occurs` from src/qc.rs lines 136-151: `n` counts
how many trials ran; the loop breaks as soon as `prop` holds.  Returns the
final value of `n` together with whether some tested value satisfied `prop`. -/
def occursLoop (cfg : QConfig) (gen : Nat → Nat → A) (prop : A → Bool)
    (n : Nat) (i : Nat) : Nat → Nat × Bool
  | 0 => (n, false)
  | rem + 1 =>
    let n' := n + 1
    let value := gen i (trialSize cfg i)
    if prop value then (n', true)
    else occursLoop cfg gen prop n' (i + 1) rem

/-- `quick_check_occurs`: after the loop the code fails iff `n >= cfg.trials`.
Returns `true` when the check passes (does not `fail!`). -/
def quickCheckOccurs (cfg : QConfig) (gen : Nat → Nat → A) (prop : A → Bool) : Bool :=
  let r := occursLoop cfg gen prop 0 0 cfg.trials
  !(decide (r.1 ≥ cfg.trials))

/-- The `shrink` method of `impl Arbitrary for u8` in src/qc.rs lines 380-393
(also used verbatim for `SmallN`).  Values are `Nat`s below 256; all
subtractions in the source are guarded so no wrap-around occurs. -/
def qcShrinkU8 (n : Nat) : List Nat :=
  if n = 0 then []
  else if n = 1 then [0]
  else if n = 2 then [1, 0]
  else if n ≤ 10 then [n - 1, n - 2, n - 3]
  else [n - 1, n - 2, n - 5, n - n / 8, n - n / 4, n / 2]

end Qc

namespace Sh

/-- The `while` loop of `mpowers_of_two` in src/shrink.rs lines 26-40: starting
from `div`, while `div < n && div >= 2` push `n - n/div` and double `div`.
(The `div >= 2` conjunct guards machine-integer overflow of `div`; on `Nat`
it is invariant but kept to mirror the source.) -/
def mpowersAux (n : Nat) (div : Nat) : List Nat :=
  if h : div < n ∧ 2 ≤ div then
    (n - n / div) :: mpowersAux n (div * 2)
  else
    []
termination_by n - div
decreasing_by omega

/-- `mpowers_of_two` from src/shrink.rs: `[0, n - n/2, n - n/4, ...]`. -/
def mpowers_of_two (n : Nat) : List Nat :=
  0 :: mpowersAux n 2

/-- The `shrink_uint!` macro of src/shrink.rs lines 42-50, used by the
`Shrink` impls for `u8` and `uint`. -/
def shrink_uint (n : Nat) : List Nat :=
  if n = 0 then []
  else if n = 1 then [0]
  else if n = 2 then [0, 1]
  else if n ≤ 8 then [n - 3, n - 2, n - 1]
  else mpowers_of_two n

end Sh

namespace Lz

/-- The effect of one suspended producer (`Thunk`/`Eval` in src/lazy.rs).
A producer receives mutable access to the stream; the bodies appearing in this
code base only ever append values to `head` (via `push`) and further producers
to the thunk queue (via `push_thunk`/`push_map`/`push_map_env`), computing both
from the environment moved in at creation.  With the environment substituted,
the producer's effect is the finite tree recorded here: when run it appends
`vals` to `head` and `thunks` to the back of the queue. -/
inductive Eval (T : Type) where
  | mk (vals : List T) (thunks : List (Eval T))

/-- `Lazy` from src/lazy.rs: materialised `head` values plus a FIFO of
suspended producers. -/
structure Lazy (T : Type) where
  head : List T
  thunks : List (Eval T)

/-- Total number of `Eval.mk` nodes in a queue, the termination measure for
replaying `Lazy::next`. -/
def evalsWeight : List (Eval T) → Nat
  | [] => 0
  | .mk _ ts :: rest => 1 + evalsWeight ts + evalsWeight rest

/-- `Lazy::next` from src/lazy.rs lines 57-67: while `head` is empty and a
producer is queued, dequeue the front producer and run it (its values land in
`head`, its new producers at the back of the queue); then deliver the front of
`head`, or `none` if everything is exhausted. -/
def Lazy.next : Lazy T → Option T × Lazy T
  | ⟨x :: h, ts⟩ => (some x, ⟨h, ts⟩)
  | ⟨[], []⟩ => (none, ⟨[], []⟩)
  | ⟨[], .mk vs ts' :: ts⟩ => Lazy.next ⟨vs, ts ++ ts'⟩
termination_by L => evalsWeight L.thunks
decreasing_by
  have happ : ∀ (a b : List (Eval T)), evalsWeight (a ++ b) = evalsWeight a + evalsWeight b := by
    intro a b
    induction a with
    | nil => simp [evalsWeight]
    | cons t rest ih =>
      cases t with
      | mk vs ts => simp only [List.cons_append, evalsWeight, ih]; omega
  simp [evalsWeight, happ]; omega

/-- All elements delivered by repeatedly calling `next` until exhaustion. -/
def Lazy.toList : Lazy T → List T
  | ⟨x :: h, ts⟩ => x :: Lazy.toList ⟨h, ts⟩
  | ⟨[], []⟩ => []
  | ⟨[], .mk vs ts' :: ts⟩ => Lazy.toList ⟨vs, ts ++ ts'⟩
termination_by L => (evalsWeight L.thunks, L.head.length)
decreasing_by
  · exact Prod.Lex.right _ (by simp)
  · have happ : ∀ (a b : List (Eval T)),
        evalsWeight (a ++ b) = evalsWeight a + evalsWeight b := by
      intro a b
      induction a with
      | nil => simp [evalsWeight]
      | cons t rest ih =>
        cases t with
        | mk vs ts => simp only [List.cons_append, evalsWeight, ih]; omega
    exact Prod.Lex.left _ _ (by simp [evalsWeight, happ]; omega)

/-- `Lazy::new`. -/
def Lazy.new : Lazy T := ⟨[], []⟩

/-- `Lazy::new_from`. -/
def Lazy.new_from (v : List T) : Lazy T := ⟨v, []⟩

/-- `Lazy::create`: run a builder on an empty stream. -/
def Lazy.create (f : Lazy T → Lazy T) : Lazy T := f Lazy.new

/-- `Lazy::push`: append a value to `head`. -/
def Lazy.push (L : Lazy T) (x : T) : Lazy T := ⟨L.head ++ [x], L.thunks⟩

/-- `Lazy::push_thunk`: append a producer to the thunk queue. -/
def Lazy.push_thunk (L : Lazy T) (t : Eval T) : Lazy T := ⟨L.head, L.thunks ++ [t]⟩

/-- The producer enqueued by `Lazy::push_map`: pull one element `x` of the
iterator, push `f x`, and re-enqueue itself with the remainder.  The iterator
is represented by the list of elements it will yield. -/
def mapEval (f : A → T) : List A → Eval T
  | [] => .mk [] []
  | x :: xs => .mk [f x] [mapEval f xs]

/-- `Lazy::push_map`. -/
def Lazy.push_map (L : Lazy T) (it : List A) (f : A → T) : Lazy T :=
  L.push_thunk (mapEval f it)

/-- `Lazy::push_map_env`: like `push_map` with an environment threaded to the
mapping function (the bodies in this code base never mutate it). -/
def Lazy.push_map_env (L : Lazy T) (it : List A) (env : E) (f : A → E → T) : Lazy T :=
  L.push_thunk (mapEval (fun a => f a env) it)

/-- The order in which a FIFO queue of self-re-arming `mapEval` chains
delivers its elements: one element of each non-exhausted chain per round, in
queue order. -/
def roundRobin : List (List T) → List T
  | [] => []
  | [] :: rest => roundRobin rest
  | (x :: xs) :: rest => x :: roundRobin (rest ++ [xs])
termination_by ls => (ls.map List.length).sum + ls.length
decreasing_by all_goals simp <;> omega

end Lz

namespace Sh

open Lz

/-- The `Shrink` trait's default method (src/shrink.rs lines 13-17), used by
the instances for `()`, `bool`, `char`, `float`, `i8` and `int`: an empty
stream. -/
def defaultShrink (_v : T) : Lazy T := Lazy.new

/-- `impl Shrink for u8` / `impl Shrink for uint` (src/shrink.rs lines 52-58). -/
def shrinkUintL (n : Nat) : Lazy Nat := Lazy.new_from (shrink_uint n)

/-- `impl Shrink for (A, B)` (src/shrink.rs lines 61-72): one `push_map_env`
per coordinate, the other coordinate cloned into the environment. -/
def shrinkPair (shrA : A → List A) (shrB : B → List B) (v : A × B) : Lazy (A × B) :=
  match v with
  | (a, b) =>
    ((Lazy.new.push_map_env (shrA a) b (fun s b => (s, b))).push_map_env
      (shrB b) a (fun s a => (a, s)))

/-- `impl Shrink` for 3-tuples (`shrink_tuple!`, src/shrink.rs lines 92-96):
one `push_map_env` per coordinate with the whole tuple as environment. -/
def shrinkTriple (shrA : A → List A) (shrB : B → List B) (shrC : C → List C)
    (v : A × B × C) : Lazy (A × B × C) :=
  Lazy.create (fun L =>
    ((L.push_map_env (shrA v.1) v (fun s t => (s, t.2.1, t.2.2))).push_map_env
        (shrB v.2.1) v (fun s t => (t.1, s, t.2.2))).push_map_env
      (shrC v.2.2) v (fun s t => (t.1, t.2.1, s)))

/-- `impl Shrink` for 4-tuples (src/shrink.rs lines 98-103). -/
def shrinkQuad (shrA : A → List A) (shrB : B → List B) (shrC : C → List C)
    (shrD : D → List D) (v : A × B × C × D) : Lazy (A × B × C × D) :=
  Lazy.create (fun L =>
    (((L.push_map_env (shrA v.1) v (fun s t => (s, t.2.1, t.2.2.1, t.2.2.2))).push_map_env
          (shrB v.2.1) v (fun s t => (t.1, s, t.2.2.1, t.2.2.2))).push_map_env
        (shrC v.2.2.1) v (fun s t => (t.1, t.2.1, s, t.2.2.2))).push_map_env
      (shrD v.2.2.2) v (fun s t => (t.1, t.2.1, t.2.2.1, s)))

/-- `impl Shrink` for 5-tuples (src/shrink.rs lines 105-111). -/
def shrinkQuint (shrA : A → List A) (shrB : B → List B) (shrC : C → List C)
    (shrD : D → List D) (shrE : E → List E) (v : A × B × C × D × E) :
    Lazy (A × B × C × D × E) :=
  Lazy.create (fun L =>
    ((((L.push_map_env (shrA v.1) v
              (fun s t => (s, t.2.1, t.2.2.1, t.2.2.2.1, t.2.2.2.2))).push_map_env
            (shrB v.2.1) v (fun s t => (t.1, s, t.2.2.1, t.2.2.2.1, t.2.2.2.2))).push_map_env
          (shrC v.2.2.1) v (fun s t => (t.1, t.2.1, s, t.2.2.2.1, t.2.2.2.2))).push_map_env
        (shrD v.2.2.2.1) v (fun s t => (t.1, t.2.1, t.2.2.1, s, t.2.2.2.2))).push_map_env
      (shrE v.2.2.2.2) v (fun s t => (t.1, t.2.1, t.2.2.1, t.2.2.2.1, s)))

/-- `impl Shrink` for 6-tuples (src/shrink.rs lines 113-120). -/
def shrinkSext (shrA : A → List A) (shrB : B → List B) (shrC : C → List C)
    (shrD : D → List D) (shrE : E → List E) (shrF : F → List F)
    (v : A × B × C × D × E × F) : Lazy (A × B × C × D × E × F) :=
  Lazy.create (fun L =>
    (((((L.push_map_env (shrA v.1) v
                (fun s t => (s, t.2.1, t.2.2.1, t.2.2.2.1, t.2.2.2.2.1, t.2.2.2.2.2))).push_map_env
              (shrB v.2.1) v
              (fun s t => (t.1, s, t.2.2.1, t.2.2.2.1, t.2.2.2.2.1, t.2.2.2.2.2))).push_map_env
            (shrC v.2.2.1) v
            (fun s t => (t.1, t.2.1, s, t.2.2.2.1, t.2.2.2.2.1, t.2.2.2.2.2))).push_map_env
          (shrD v.2.2.2.1) v
          (fun s t => (t.1, t.2.1, t.2.2.1, s, t.2.2.2.2.1, t.2.2.2.2.2))).push_map_env
        (shrE v.2.2.2.2.1) v
        (fun s t => (t.1, t.2.1, t.2.2.1, t.2.2.2.1, s, t.2.2.2.2.2))).push_map_env
      (shrF v.2.2.2.2.2) v
      (fun s t => (t.1, t.2.1, t.2.2.1, t.2.2.2.1, t.2.2.2.2.1, s)))

/-- `impl Shrink for Option<T>` (src/shrink.rs lines 122-134). -/
def shrinkOption (shr : T → List T) (v : Option T) : Lazy (Option T) :=
  Lazy.create (fun L =>
    match v with
    | none => L
    | some x => (L.push none).push_map (shr x) some)

/-- `impl Shrink for Result<T, U>` (src/shrink.rs lines 136-145); `Ok` is
`Except.ok`, `Err` is `Except.error`. -/
def shrinkResult (shrT : T → List T) (shrU : U → List U) (v : Except U T) :
    Lazy (Except U T) :=
  Lazy.create (fun L =>
    match v with
    | .ok x => L.push_map (shrT x) Except.ok
    | .error x => L.push_map (shrU x) Except.error)

/-- `impl Shrink for Either<T, U>` (src/shrink.rs lines 147-156); `Left` is
`Sum.inl`, `Right` is `Sum.inr`. -/
def shrinkEither (shrT : T → List T) (shrU : U → List U) (v : T ⊕ U) :
    Lazy (T ⊕ U) :=
  Lazy.create (fun L =>
    match v with
    | .inl x => L.push_map (shrT x) Sum.inl
    | .inr x => L.push_map (shrU x) Sum.inr)

/-- An owned box `~T`. -/
structure Box (T : Type) where
  val : T
  deriving DecidableEq, Repr

/-- `impl Shrink for ~T` (src/shrink.rs lines 158-164): map the inner shrink,
re-boxing. -/
def shrinkBox (shr : T → List T) (v : Box T) : Lazy (Box T) :=
  Lazy.create (fun L => L.push_map (shr v.val) Box.mk)

/-- The innermost producer of the `~[T]` shrink (the `push_map_env` at
src/shrink.rs lines 216-223): for each `selt` in `v[index].shrink()`, the
vector with element `index` replaced by `selt`. -/
def listElemsEval [Inhabited T] (shr : T → List T) (index : Nat) (v : List T) :
    Eval (List T) :=
  mapEval (fun selt => v.set index selt) (shr (v.getD index default))

/-- The per-index producer (src/shrink.rs lines 211-224): push the vector with
element `index` removed, then enqueue a producer that will enqueue the
element-shrink chain. -/
def listIdxEval [Inhabited T] (shr : T → List T) (index : Nat) (v : List T) :
    Eval (List T) :=
  .mk [v.eraseIdx index] [.mk [] [listElemsEval shr index v]]

/-- The `for index in range(0, v.len())` producer (src/shrink.rs lines
208-226). -/
def listIndicesEval [Inhabited T] (shr : T → List T) (v : List T) : Eval (List T) :=
  .mk [] ((List.range v.length).map (fun i => listIdxEval shr i v))

/-- The outer producer (src/shrink.rs lines 202-227): if `len > 2` push the
first half then the second half, then enqueue the per-index producer. -/
def listHalvesEval [Inhabited T] (shr : T → List T) (v : List T) : Eval (List T) :=
  .mk (if 2 < v.length then [v.take (v.length / 2), v.drop (v.length / 2)] else [])
    [listIndicesEval shr v]

/-- `impl Shrink for ~[T]` (src/shrink.rs lines 193-230). -/
def shrinkList [Inhabited T] (shr : T → List T) (v : List T) : Lazy (List T) :=
  if v.length = 0 then Lazy.new
  else (Lazy.new.push []).push_thunk (listHalvesEval shr v)

/-- `impl Shrink for ~str` (src/shrink.rs lines 182-191): shrink the character
sequence (characters themselves are atomic) and rebuild with `from_chars`. -/
def shrinkString (s : String) : Lazy String :=
  Lazy.create (fun L =>
    if 0 < s.data.length then
      L.push_map (Lazy.toList (shrinkList (fun _ => []) s.data)) String.mk
    else L)

/-- `v.move_iter().collect::<HashMap<K,V>>()`: successive `insert`s, later
pairs overwriting earlier ones, viewed extensionally as the lookup function. -/
def collectMap [DecidableEq K] (l : List (K × V)) : K → Option V :=
  fun k => (l.reverse.find? (fun p => decide (p.1 = k))).map Prod.snd

/-- `impl Shrink for HashMap<K, V>` (src/shrink.rs lines 245-255): shrink the
map's key/value pair sequence and collect each candidate back into a map.
`pairs` is the snapshot `self.clone().move_iter().collect::<~[(K, V)]>()`. -/
def shrinkHashMap [DecidableEq K] [Inhabited (K × V)]
    (shrK : K → List K) (shrV : V → List V) (pairs : List (K × V)) :
    Lazy (K → Option V) :=
  Lazy.create (fun L =>
    if 0 < pairs.length then
      L.push_map
        (Lazy.toList (shrinkList
          (fun p => Lazy.toList (shrinkPair shrK shrV p)) pairs))
        collectMap
    else L)

end Sh

namespace Lz

theorem evalsWeight_append (a b : List (Eval T)) :
    evalsWeight (a ++ b) = evalsWeight a + evalsWeight b := by
  induction a with
  | nil => simp [evalsWeight]
  | cons t rest ih =>
    cases t with
    | mk vs ts => simp only [List.cons_append, evalsWeight, ih]; omega

theorem Lazy.toList_cons (x : T) (h : List T) (ts : List (Eval T)) :
    Lazy.toList ⟨x :: h, ts⟩ = x :: Lazy.toList ⟨h, ts⟩ := by
  simp [Lazy.toList]

theorem Lazy.toList_empty : Lazy.toList (⟨[], []⟩ : Lazy T) = [] := by
  simp [Lazy.toList]

theorem Lazy.toList_step (vs : List T) (ts' ts : List (Eval T)) :
    Lazy.toList ⟨[], .mk vs ts' :: ts⟩ = Lazy.toList ⟨vs, ts ++ ts'⟩ := by
  rw [Lazy.toList]

theorem Lazy.toList_head_append (h : List T) (ts : List (Eval T)) :
    Lazy.toList ⟨h, ts⟩ = h ++ Lazy.toList ⟨[], ts⟩ := by
  induction h with
  | nil => simp
  | cons x h ih => rw [Lazy.toList_cons, ih]; simp

theorem Lazy.toList_new_from (v : List T) :
    Lazy.toList (Lazy.new_from v) = v := by
  rw [Lazy.new_from, Lazy.toList_head_append, Lazy.toList_empty, List.append_nil]

theorem roundRobin_nil : roundRobin ([] : List (List T)) = [] := by
  simp [roundRobin]

theorem roundRobin_cons_nil (rest : List (List T)) :
    roundRobin ([] :: rest) = roundRobin rest := by
  rw [roundRobin]

theorem roundRobin_cons_cons (x : T) (xs : List T) (rest : List (List T)) :
    roundRobin ((x :: xs) :: rest) = x :: roundRobin (rest ++ [xs]) := by
  rw [roundRobin]

/-- Round-robin delivery is a permutation of simple concatenation. -/
theorem roundRobin_perm (ls : List (List T)) : (roundRobin ls).Perm ls.flatten := by
  induction ls using roundRobin.induct with
  | case1 => simp [roundRobin_nil]
  | case2 rest ih => rw [roundRobin_cons_nil]; simpa using ih
  | case3 x xs rest ih =>
    rw [roundRobin_cons_cons]
    refine List.Perm.trans (List.Perm.cons x ih) ?_
    simp only [List.flatten_append, List.flatten_cons, List.flatten_nil,
      List.append_nil, List.flatten]
    exact List.Perm.cons x (List.perm_append_comm)

theorem mem_roundRobin_iff (a : T) (ls : List (List T)) :
    a ∈ roundRobin ls ↔ ∃ l ∈ ls, a ∈ l := by
  rw [(roundRobin_perm ls).mem_iff, List.mem_flatten]

theorem roundRobin_singleton (l : List T) : roundRobin [l] = l := by
  induction l with
  | nil => simp [roundRobin_nil, roundRobin_cons_nil]
  | cons x xs ih => rw [roundRobin_cons_cons]; simpa using ih

theorem mapEval_eq_map (f : A → T) (l : List A) :
    mapEval f l = mapEval id (l.map f) := by
  induction l with
  | nil => simp [mapEval]
  | cons x xs ih => simp [mapEval, ih]

/-- A queue consisting only of `mapEval` chains delivers the chains' elements
round-robin. -/
theorem Lazy.toList_chains (ls : List (List T)) :
    Lazy.toList ⟨[], ls.map (mapEval id)⟩ = roundRobin ls := by
  induction ls using roundRobin.induct with
  | case1 => rw [roundRobin_nil]; simp [Lazy.toList_empty]
  | case2 rest ih =>
    rw [roundRobin_cons_nil, ← ih]
    show Lazy.toList ⟨[], Eval.mk [] [] :: rest.map (mapEval id)⟩ = _
    rw [Lazy.toList_step]
    simp
  | case3 x xs rest ih =>
    rw [roundRobin_cons_cons, ← ih]
    show Lazy.toList ⟨[], Eval.mk [x] [mapEval id xs] :: rest.map (mapEval id)⟩ = _
    rw [Lazy.toList_step, Lazy.toList_head_append]
    simp

theorem Lazy.toList_single_chain (f : A → T) (l : List A) :
    Lazy.toList ⟨[], [mapEval f l]⟩ = l.map f := by
  rw [mapEval_eq_map]
  have := Lazy.toList_chains [l.map f]
  simpa [roundRobin_singleton] using this

/-- Queue phase lemma: a prefix of producers each pushing one value `aᵢ` and
enqueueing one continuation `cᵢ` delivers `a₀ … a_{k-1}` and leaves the
continuations queued behind `cs`. -/
theorem Lazy.toList_pairs (ps : List (T × Eval T)) (cs : List (Eval T)) :
    Lazy.toList ⟨[], ps.map (fun p => Eval.mk [p.1] [p.2]) ++ cs⟩
      = ps.map Prod.fst ++ Lazy.toList ⟨[], cs ++ ps.map Prod.snd⟩ := by
  induction ps generalizing cs with
  | nil => simp
  | cons p ps ih =>
    simp only [List.map_cons, List.cons_append]
    rw [Lazy.toList_step, Lazy.toList_head_append]
    rw [List.append_assoc, ih (cs ++ [p.2])]
    simp

/-- Queue phase lemma: a prefix of value-less producers each enqueueing one
continuation moves those continuations behind `cs`. -/
theorem Lazy.toList_wrappers (ls cs : List (Eval T)) :
    Lazy.toList ⟨[], ls.map (fun c => Eval.mk [] [c]) ++ cs⟩
      = Lazy.toList ⟨[], cs ++ ls⟩ := by
  induction ls generalizing cs with
  | nil => simp
  | cons c ls ih =>
    simp only [List.map_cons, List.cons_append]
    rw [Lazy.toList_step]
    show Lazy.toList ⟨[], (ls.map (fun c => Eval.mk [] [c]) ++ cs) ++ [c]⟩ = _
    rw [List.append_assoc, ih (cs ++ [c])]
    simp

end Lz


/-- C8 counterexample: the default config has `trials = 25` in the source
(src/qc.rs line 53, doc comment "default 25"), not 50 as the claim states. -/
theorem config_default_trials_cex : Qc.config.trials = 25 ∧ (25 : Nat) ≠ 50 := by
  decide

/-- C8 (amended): the default config value has `trials = 25`, `size = 8`,
`grow = true` and `verbose = false`, and each field-setter method returns a
new config with only that field changed. -/
theorem config_defaults_and_setters :
    (Qc.config.trials = 25 ∧ Qc.config.size = 8 ∧ Qc.config.grow = true ∧
      Qc.config.verbose = false) ∧
    (∀ (c : Qc.QConfig) (x : Nat), (c.size' x).size = x ∧
      (c.size' x).trials = c.trials ∧ (c.size' x).grow = c.grow ∧
      (c.size' x).verbose = c.verbose) ∧
    (∀ (c : Qc.QConfig) (x : Nat), (c.trials' x).trials = x ∧
      (c.trials' x).size = c.size ∧ (c.trials' x).grow = c.grow ∧
      (c.trials' x).verbose = c.verbose) ∧
    (∀ (c : Qc.QConfig) (x : Bool), (c.grow' x).grow = x ∧
      (c.grow' x).trials = c.trials ∧ (c.grow' x).size = c.size ∧
      (c.grow' x).verbose = c.verbose) ∧
    (∀ (c : Qc.QConfig) (x : Bool), (c.verbose' x).verbose = x ∧
      (c.verbose' x).trials = c.trials ∧ (c.verbose' x).size = c.size ∧
      (c.verbose' x).grow = c.grow) := by
  refine ⟨by decide, ?_, ?_, ?_, ?_⟩ <;> intro c x <;>
    simp [Qc.QConfig.size', Qc.QConfig.trials', Qc.QConfig.grow', Qc.QConfig.verbose']

/-- C1: whenever `quick_shrink` returns a result `r` starting from a
falsifying value `v`, then `prop r = false` and every candidate in
`shrink(r)` satisfies `prop` — a local minimum of the shrink relation. -/
theorem quick_shrink_local_minimum {A : Type} (shr : A → List A) (prop : A → Bool)
    (fuel : Nat) (v r : A) (hv : prop v = false)
    (hr : Qc.quickShrink shr prop fuel v = some r) :
    prop r = false ∧ ∀ c ∈ shr r, prop c = true := by
  induction fuel generalizing v with
  | zero => simp [Qc.quickShrink] at hr
  | succ fuel ih =>
    rw [Qc.quickShrink] at hr
    cases hf : Qc.firstFalsifying prop (shr v).reverse with
    | none =>
      rw [hf] at hr
      obtain rfl : v = r := by injection hr
      refine ⟨hv, fun c hc => ?_⟩
      have hall : ∀ x ∈ shr v, prop x = true := by
        simpa [Qc.firstFalsifying] using hf
      exact hall c hc
    | some elt =>
      rw [hf] at hr
      have helt : prop elt = false := by
        have := List.find?_some (by simpa [Qc.firstFalsifying] using hf)
        simpa using this
      exact ih elt helt hr

/-- C1 witness: shrinking 3 with an always-false predicate reaches 0, whose
shrink list is empty. -/
theorem quick_shrink_local_minimum_w :
    (fun n => decide (6 ≤ n)) 3 = false ∧
    Qc.quickShrink Qc.qcShrinkU8 (fun n => decide (6 ≤ n)) 5 3 = some 0 ∧
    ((fun n => decide (6 ≤ n)) 0 = false ∧
      ∀ c ∈ Qc.qcShrinkU8 0, (fun n => decide (6 ≤ n)) c = true) :=
  ⟨by decide, by decide,
    quick_shrink_local_minimum Qc.qcShrinkU8 (fun n => decide (6 ≤ n)) 5 3 0
      (by decide) (by decide)⟩

/-- C3: the code contradicts the claim.  With `trials = 1` and a predicate
that holds on the (only, hence last) trial, the loop of `quick_check_occurs`
sets `n = 1` before breaking, so the post-loop test `n >= cfg.trials` makes
the function `fail!` even though a satisfying value occurred. -/
theorem quick_check_occurs_last_trial_bug :
    (Qc.occursLoop (Qc.config.trials' 1) (fun _ _ => (0 : Nat)) (fun _ => true) 0 0
        (Qc.config.trials' 1).trials).2 = true ∧
    Qc.quickCheckOccurs (Qc.config.trials' 1) (fun _ _ => (0 : Nat)) (fun _ => true)
      = false := by
  decide

theorem quickCheckAux_ok {A : Type} (cfg : Qc.QConfig) (gen : Nat → Nat → A)
    (shr : A → List A) (prop : A → Bool) (fuel : Nat) :
    ∀ (rem i : Nat), (Qc.quickCheckAux cfg gen shr prop fuel i rem).2 = .ok () →
      (Qc.quickCheckAux cfg gen shr prop fuel i rem).1
        = (List.range rem).map (fun t => gen (i + t) (Qc.trialSize cfg (i + t))) ∧
      ∀ v ∈ (Qc.quickCheckAux cfg gen shr prop fuel i rem).1, prop v = true := by
  intro rem
  induction rem with
  | zero => intro i _; simp [Qc.quickCheckAux]
  | succ rem ih =>
    intro i h
    simp only [Qc.quickCheckAux] at h ⊢
    by_cases hp : prop (gen i (Qc.trialSize cfg i)) = true
    · rw [if_pos hp] at h ⊢
      obtain ⟨h1, h2⟩ := ih (i + 1) h
      constructor
      · rw [h1, List.range_succ_eq_map, List.map_cons, List.map_map]
        refine List.cons_eq_cons.mpr ⟨rfl, List.map_congr_left fun t _ => ?_⟩
        have ht : i + 1 + t = i + (t + 1) := by omega
        simp [Function.comp, ht]
      · intro v hv
        rcases List.mem_cons.mp hv with rfl | hv
        · exact hp
        · exact h2 v hv
    · rw [if_neg hp] at h
      simp at h

/-- C2: if `quick_check` returns normally then every tested value satisfied
`prop`; exactly `cfg.trials` values were generated and checked, namely on
trial `i` the oracle's value at size `trialSize cfg i = cfg.size + (grow ?
i/8 : 0)`, and that size is non-decreasing across trials. -/
theorem quick_check_runner {A : Type} (cfg : Qc.QConfig) (gen : Nat → Nat → A)
    (shr : A → List A) (prop : A → Bool) (fuel : Nat) :
    ((Qc.quickCheck cfg gen shr prop fuel).2 = .ok () →
      (Qc.quickCheck cfg gen shr prop fuel).1
          = (List.range cfg.trials).map (fun i => gen i (Qc.trialSize cfg i)) ∧
        (Qc.quickCheck cfg gen shr prop fuel).1.length = cfg.trials ∧
        ∀ v ∈ (Qc.quickCheck cfg gen shr prop fuel).1, prop v = true) ∧
    (∀ i, Qc.trialSize cfg i = cfg.size + if cfg.grow then i / 8 else 0) ∧
    (∀ i j, i ≤ j → Qc.trialSize cfg i ≤ Qc.trialSize cfg j) := by
  refine ⟨fun h => ?_, fun i => rfl, fun i j hij => ?_⟩
  · obtain ⟨h1, h2⟩ := quickCheckAux_ok cfg gen shr prop fuel cfg.trials 0 h
    have h1' : (Qc.quickCheck cfg gen shr prop fuel).1
        = (List.range cfg.trials).map (fun i => gen i (Qc.trialSize cfg i)) := by
      simpa using h1
    exact ⟨h1', by rw [h1']; simp, h2⟩
  · unfold Qc.trialSize
    cases hg : cfg.grow
    · simp
    · simpa using Nat.div_le_div_right (c := 8) hij

/-- C2 witness: a passing 3-trial run tests exactly the three oracle values,
and the trial size is monotone from trial 2 to trial 9. -/
theorem quick_check_runner_w :
    (Qc.quickCheck (Qc.config.trials' 3) (fun i sz => i + sz) Qc.qcShrinkU8
        (fun _ => true) 1).2 = Except.ok () ∧
    (Qc.quickCheck (Qc.config.trials' 3) (fun i sz => i + sz) Qc.qcShrinkU8
        (fun _ => true) 1).1
      = (List.range 3).map
          (fun i => i + Qc.trialSize (Qc.config.trials' 3) i) ∧
    (2 ≤ 9 ∧ Qc.trialSize (Qc.config.trials' 3) 2 ≤ Qc.trialSize (Qc.config.trials' 3) 9) :=
  ⟨by rfl,
    ((quick_check_runner (Qc.config.trials' 3) (fun i sz => i + sz) Qc.qcShrinkU8
        (fun _ => true) 1).1 (by rfl)).1,
    by decide,
    (quick_check_runner (Qc.config.trials' 3) (fun i sz => i + sz) Qc.qcShrinkU8
        (fun _ => true) 1).2.2 2 9 (by decide)⟩

/-- C10 counterexample: at `n = 9` the `Arbitrary` shrink of qc.rs gives
`[8, 7, 6]` while the `Shrink` stream of shrink.rs gives `[0, 5, 7, 8]` —
neither the same candidates nor the same order (qc.rs has no 0 at all). -/
theorem u8_shrink_impls_differ_cex :
    Qc.qcShrinkU8 9 = [8, 7, 6] ∧ Sh.shrink_uint 9 = [0, 5, 7, 8] ∧
    Qc.qcShrinkU8 9 ≠ Sh.shrink_uint 9 ∧ 0 ∈ Sh.shrink_uint 9 ∧
    0 ∉ Qc.qcShrinkU8 9 := by
  have h : Sh.shrink_uint 9 = [0, 5, 7, 8] := by
    simp [Sh.shrink_uint, Sh.mpowers_of_two, Sh.mpowersAux]
  refine ⟨by decide, h, ?_, ?_, by decide⟩
  · rw [h]; decide
  · rw [h]; decide

/-- C10 (amended): for `n ≤ 8` the two u8 shrink definitions yield the same
candidates in reverse order; for `n ≥ 9` they differ — qc.rs starts at `n-1`
and never contains 0, shrink.rs starts at 0. -/
theorem u8_shrink_impls_compare (n : Nat) :
    (n < 9 → Qc.qcShrinkU8 n = (Sh.shrink_uint n).reverse) ∧
    (9 ≤ n → (Qc.qcShrinkU8 n).head? = some (n - 1) ∧
      (Sh.shrink_uint n).head? = some 0 ∧
      Qc.qcShrinkU8 n ≠ Sh.shrink_uint n ∧
      0 ∉ Qc.qcShrinkU8 n ∧ 0 ∈ Sh.shrink_uint n) := by
  constructor
  · intro h
    interval_cases n <;> decide
  · intro h9
    have h0 : n ≠ 0 := by omega
    have h1 : n ≠ 1 := by omega
    have h2 : n ≠ 2 := by omega
    have hsh : Sh.shrink_uint n = 0 :: Sh.mpowersAux n 2 := by
      simp [Sh.shrink_uint, Sh.mpowers_of_two, h0, h1, h2, show ¬(n ≤ 8) by omega]
    have hqc : (Qc.qcShrinkU8 n).head? = some (n - 1) := by
      by_cases h10 : n ≤ 10 <;> simp [Qc.qcShrinkU8, h0, h1, h2, h10]
    refine ⟨hqc, by rw [hsh]; rfl, ?_, ?_, by rw [hsh]; exact List.mem_cons_self 0 _⟩
    · intro heq
      rw [heq, hsh] at hqc
      simp at hqc
      omega
    · intro hmem
      simp only [Qc.qcShrinkU8, if_neg h0, if_neg h1, if_neg h2] at hmem
      by_cases h10 : n ≤ 10
      · rw [if_pos h10] at hmem; simp at hmem; omega
      · rw [if_neg h10] at hmem; simp at hmem; omega

/-- C10 witness: the reversal law at 5 and the divergence at 9. -/
theorem u8_shrink_impls_compare_w :
    (Qc.qcShrinkU8 5 = (Sh.shrink_uint 5).reverse) ∧
    ((9 : Nat) ≤ 9 ∧ Qc.qcShrinkU8 9 ≠ Sh.shrink_uint 9) :=
  ⟨(u8_shrink_impls_compare 5).1 (by decide), by decide,
    ((u8_shrink_impls_compare 9).2 (by decide)).2.2.1⟩

/-- C4 counterexample: at `n = 16` (a power of two) the shrink stream is
`[0, 8, 12, 14]`, ending at `n - 2 = 14`, not at `n - 1 = 15` as the claim
states. -/
theorem shrink_uint_claim_cex :
    Sh.shrink_uint 16 = [0, 8, 12, 14] ∧
    (Sh.shrink_uint 16).getLast? ≠ some 15 := by
  have h : Sh.shrink_uint 16 = [0, 8, 12, 14] := by
    simp [Sh.shrink_uint, Sh.mpowers_of_two, Sh.mpowersAux]
  exact ⟨h, by rw [h]; decide⟩

theorem pow_bracket_exists (n : Nat) (hn : 3 ≤ n) :
    ∃ m, 1 ≤ m ∧ 2 ^ m < n ∧ n ≤ 2 ^ (m + 1) := by
  refine ⟨Nat.log 2 (n - 1), ?_, ?_, ?_⟩
  · exact Nat.log_pos (by norm_num) (by omega)
  · have h1 := Nat.pow_log_le_self 2 (x := n - 1) (by omega)
    omega
  · have h2 := Nat.lt_pow_succ_log_self (b := 2) (by norm_num) (n - 1)
    omega

theorem mpowersAux_eq_range (n m : Nat) (hmn : 2 ^ m < n) (hn : n ≤ 2 ^ (m + 1)) :
    ∀ d j, 1 ≤ j → m + 1 - j = d →
      Sh.mpowersAux n (2 ^ j) = (List.range d).map (fun t => n - n / 2 ^ (j + t)) := by
  intro d
  induction d with
  | zero =>
    intro j hj hd
    have hge : n ≤ 2 ^ j :=
      le_trans hn (Nat.pow_le_pow_right (by norm_num) (by omega))
    have hcond : ¬(2 ^ j < n ∧ 2 ≤ 2 ^ j) := by
      rintro ⟨hlt, -⟩; omega
    rw [Sh.mpowersAux, dif_neg hcond]
    simp
  | succ d ih =>
    intro j hj hd
    have hlt : 2 ^ j < n :=
      lt_of_le_of_lt (Nat.pow_le_pow_right (by norm_num) (by omega)) hmn
    have h2j : 2 ≤ 2 ^ j := by
      calc (2 : Nat) = 2 ^ 1 := by norm_num
      _ ≤ 2 ^ j := Nat.pow_le_pow_right (by norm_num) hj
    rw [Sh.mpowersAux, dif_pos ⟨hlt, h2j⟩]
    have hmul : 2 ^ j * 2 = 2 ^ (j + 1) := by rw [pow_succ]
    rw [hmul, ih (j + 1) (by omega) (by omega)]
    rw [List.range_succ_eq_map, List.map_cons, List.map_map]
    refine List.cons_eq_cons.mpr ⟨by simp, List.map_congr_left fun t _ => ?_⟩
    have ht : j + (t + 1) = j + 1 + t := by omega
    simp [Function.comp, ht]

/-- C4 (amended): the `Shrink` candidates for an unsigned integer `n` are
exactly: none for 0; `[0]` for 1; `[0, 1]` for 2; `[n-3, n-2, n-1]` for
3 ≤ n ≤ 8; and for n ≥ 9 the list `0, n-⌊n/2⌋, n-⌊n/4⌋, …`, one entry
`n - ⌊n/2^(t+1)⌋` for each power `2^(t+1) < n` in that order — ending at
`n-2` when `n` is a power of two and at `n-1` otherwise. -/
theorem shrink_uint_characterization (n : Nat) :
    (n = 0 → Sh.shrink_uint n = []) ∧
    (n = 1 → Sh.shrink_uint n = [0]) ∧
    (n = 2 → Sh.shrink_uint n = [0, 1]) ∧
    (3 ≤ n → n ≤ 8 → Sh.shrink_uint n = [n - 3, n - 2, n - 1]) ∧
    (9 ≤ n → ∃ m, 1 ≤ m ∧ 2 ^ m < n ∧ n ≤ 2 ^ (m + 1) ∧
      Sh.shrink_uint n = 0 :: (List.range m).map (fun t => n - n / 2 ^ (t + 1)) ∧
      ((n = 2 ^ (m + 1)) ↔ ∃ k, n = 2 ^ k) ∧
      (Sh.shrink_uint n).getLast?
        = some (if n = 2 ^ (m + 1) then n - 2 else n - 1)) := by
  refine ⟨fun h => by subst h; decide, fun h => by subst h; decide,
    fun h => by subst h; decide, fun h3 h8 => ?_, fun h9 => ?_⟩
  · simp [Sh.shrink_uint, show n ≠ 0 by omega, show n ≠ 1 by omega,
      show n ≠ 2 by omega, h8]
  · obtain ⟨m, hm1, hmn, hn2⟩ := pow_bracket_exists n (by omega)
    have hspow : Sh.shrink_uint n = 0 :: Sh.mpowersAux n 2 := by
      simp [Sh.shrink_uint, Sh.mpowers_of_two, show n ≠ 0 by omega,
        show n ≠ 1 by omega, show n ≠ 2 by omega, show ¬(n ≤ 8) by omega]
    have haux : Sh.mpowersAux n 2
        = (List.range m).map (fun t => n - n / 2 ^ (t + 1)) := by
      have h21 : Sh.mpowersAux n 2 = Sh.mpowersAux n (2 ^ 1) := by norm_num
      rw [h21, mpowersAux_eq_range n m hmn hn2 m 1 (by norm_num) (by omega)]
      exact List.map_congr_left fun t _ => by rw [Nat.add_comm]
    refine ⟨m, hm1, hmn, hn2, by rw [hspow, haux], ?_, ?_⟩
    · constructor
      · intro h; exact ⟨m + 1, h⟩
      · rintro ⟨k, rfl⟩
        have hk1 : m < k := (Nat.pow_lt_pow_iff_right (by norm_num)).mp hmn
        have hk2 : k ≤ m + 1 := (Nat.pow_le_pow_iff_right (by norm_num)).mp hn2
        have : k = m + 1 := by omega
        rw [this]
    · obtain ⟨m', rfl⟩ : ∃ m', m = m' + 1 := ⟨m - 1, by omega⟩
      have hpow2 : 2 ^ (m' + 1 + 1) = 2 * 2 ^ (m' + 1) := by ring
      have hp : 0 < 2 ^ (m' + 1) := Nat.pos_pow_of_pos _ (by norm_num)
      have hdiv : n / 2 ^ (m' + 1) = if n = 2 ^ (m' + 1 + 1) then 2 else 1 := by
        by_cases hcase : n = 2 ^ (m' + 1 + 1)
        · rw [if_pos hcase, hcase, hpow2, Nat.mul_div_cancel _ hp]
        · rw [if_neg hcase]
          have hlow : 1 ≤ n / 2 ^ (m' + 1) :=
            (Nat.one_le_div_iff hp).mpr (le_of_lt hmn)
          have hup : n / 2 ^ (m' + 1) < 2 :=
            (Nat.div_lt_iff_lt_mul hp).mpr (by omega)
          omega
      rw [hspow, haux, List.range_succ, List.map_append, List.map_cons,
        List.map_nil, ← List.cons_append, List.getLast?_concat]
      rw [hdiv]
      by_cases hcase : n = 2 ^ (m' + 1 + 1)
      · rw [if_pos hcase, if_pos hcase]
      · rw [if_neg hcase, if_neg hcase]

/-- C4 witness: the characterization instantiated at the power of two 16. -/
theorem shrink_uint_characterization_w :
    (9 : Nat) ≤ 16 ∧ ∃ m, 1 ≤ m ∧ 2 ^ m < 16 ∧ 16 ≤ 2 ^ (m + 1) ∧
      Sh.shrink_uint 16 = 0 :: (List.range m).map (fun t => 16 - 16 / 2 ^ (t + 1)) ∧
      ((16 = 2 ^ (m + 1)) ↔ ∃ k, (16 : Nat) = 2 ^ k) ∧
      (Sh.shrink_uint 16).getLast?
        = some (if 16 = 2 ^ (m + 1) then 16 - 2 else 16 - 1) :=
  ⟨by decide, (shrink_uint_characterization 16).2.2.2.2 (by decide)⟩

theorem shrinkOption_toList {T : Type} (shr : T → List T) :
    (∀ x : T, Lz.Lazy.toList (Sh.shrinkOption shr (some x))
        = none :: (shr x).map some) ∧
    Lz.Lazy.toList (Sh.shrinkOption shr (none : Option T)) = [] := by
  constructor
  · intro x
    show Lz.Lazy.toList ⟨[none], [Lz.mapEval some (shr x)]⟩ = _
    rw [Lz.Lazy.toList_head_append, Lz.Lazy.toList_single_chain]
    rfl
  · exact Lz.Lazy.toList_empty

/-- C6: the shrink stream of `Some(x)` delivers `None` first, then `Some(x')`
for each `x'` in the element stream, in order; the stream of `None` is
empty. -/
theorem option_shrink_stream {T : Type} (shr : T → List T) :
    (∀ x : T, Lz.Lazy.toList (Sh.shrinkOption shr (some x))
        = none :: (shr x).map some) ∧
    Lz.Lazy.toList (Sh.shrinkOption shr (none : Option T)) = [] :=
  shrinkOption_toList shr

/-- C9: when `next()` returns `None` the stream it leaves behind has empty
`head` and empty thunk queue (exhaustion), and calling `next()` on that
stream returns `None` again, leaving it unchanged. -/
theorem lazy_next_exhaustion {T : Type} (L : Lz.Lazy T)
    (h : (Lz.Lazy.next L).1 = none) :
    (Lz.Lazy.next L).2.head = [] ∧ (Lz.Lazy.next L).2.thunks = [] ∧
    Lz.Lazy.next (Lz.Lazy.next L).2 = (none, (Lz.Lazy.next L).2) := by
  induction L using Lz.Lazy.next.induct with
  | case1 x hd ts =>
    rw [Lz.Lazy.next] at h
    simp at h
  | case2 =>
    rw [Lz.Lazy.next] at h ⊢
    refine ⟨rfl, rfl, ?_⟩
    rw [Lz.Lazy.next]
  | case3 vs ts' ts ih =>
    rw [Lz.Lazy.next] at h ⊢
    exact ih h

/-- C9 witness: a stream with an empty producer queued runs it, returns
`None`, and is exhausted from then on. -/
theorem lazy_next_exhaustion_w :
    (Lz.Lazy.next (⟨[], [Lz.Eval.mk [] []]⟩ : Lz.Lazy Nat)).1 = none ∧
    ((Lz.Lazy.next (⟨[], [Lz.Eval.mk [] []]⟩ : Lz.Lazy Nat)).2.head = [] ∧
      (Lz.Lazy.next (⟨[], [Lz.Eval.mk [] []]⟩ : Lz.Lazy Nat)).2.thunks = [] ∧
      Lz.Lazy.next (Lz.Lazy.next (⟨[], [Lz.Eval.mk [] []]⟩ : Lz.Lazy Nat)).2
        = (none, (Lz.Lazy.next (⟨[], [Lz.Eval.mk [] []]⟩ : Lz.Lazy Nat)).2)) :=
  ⟨by simp [Lz.Lazy.next], lazy_next_exhaustion _ (by simp [Lz.Lazy.next])⟩

theorem Lz.Lazy.toList_pairs_nil {T : Type} (ps : List (T × Lz.Eval T)) :
    Lz.Lazy.toList ⟨[], ps.map (fun p => Lz.Eval.mk [p.1] [p.2])⟩
      = ps.map Prod.fst ++ Lz.Lazy.toList ⟨[], ps.map Prod.snd⟩ := by
  have h := Lz.Lazy.toList_pairs ps []
  simpa using h

theorem Lz.Lazy.toList_wrappers_nil {T : Type} (ls : List (Lz.Eval T)) :
    Lz.Lazy.toList ⟨[], ls.map (fun c => Lz.Eval.mk [] [c])⟩
      = Lz.Lazy.toList ⟨[], ls⟩ := by
  have h := Lz.Lazy.toList_wrappers ls []
  simpa using h

theorem toList_idx_phase {T : Type} [Inhabited T] (shr : T → List T) (v : List T) :
    Lz.Lazy.toList ⟨[], (List.range v.length).map (fun i => Sh.listIdxEval shr i v)⟩
      = (List.range v.length).map (fun i => v.eraseIdx i)
        ++ Lz.roundRobin ((List.range v.length).map
            (fun i => (shr (v.getD i default)).map (fun s => v.set i s))) := by
  have h1 : (List.range v.length).map (fun i => Sh.listIdxEval shr i v)
      = ((List.range v.length).map
            (fun i => (v.eraseIdx i,
              Lz.Eval.mk ([] : List (List T)) [Sh.listElemsEval shr i v]))).map
          (fun p => Lz.Eval.mk [p.1] [p.2]) := by
    rw [List.map_map]; rfl
  rw [h1, Lz.Lazy.toList_pairs_nil, List.map_map, List.map_map]
  refine congrArg₂ (· ++ ·) rfl ?_
  rw [show (List.range v.length).map
        (Prod.snd ∘ fun i => (v.eraseIdx i,
          Lz.Eval.mk ([] : List (List T)) [Sh.listElemsEval shr i v]))
      = ((List.range v.length).map (fun i => Sh.listElemsEval shr i v)).map
          (fun c => Lz.Eval.mk ([] : List (List T)) [c]) from by rw [List.map_map]; rfl]
  rw [Lz.Lazy.toList_wrappers_nil]
  have h3 : (List.range v.length).map (fun i => Sh.listElemsEval shr i v)
      = ((List.range v.length).map
          (fun i => (shr (v.getD i default)).map (fun s => v.set i s))).map
            (Lz.mapEval id) := by
    rw [List.map_map]
    exact List.map_congr_left fun i _ => Lz.mapEval_eq_map _ _
  rw [h3, Lz.Lazy.toList_chains]

theorem shrinkList_stream_char {T : Type} [Inhabited T] (shr : T → List T) (v : List T) :
    (v = [] → Lz.Lazy.toList (Sh.shrinkList shr v) = []) ∧
    (v ≠ [] → Lz.Lazy.toList (Sh.shrinkList shr v)
      = [[]]
        ++ (if 2 < v.length then [v.take (v.length / 2), v.drop (v.length / 2)] else [])
        ++ (List.range v.length).map (fun i => v.eraseIdx i)
        ++ Lz.roundRobin ((List.range v.length).map
            (fun i => (shr (v.getD i default)).map (fun s => v.set i s)))) := by
  constructor
  · intro hv
    subst hv
    exact Lz.Lazy.toList_empty
  · intro hv
    have hlen : ¬(v.length = 0) := by simpa using hv
    rw [Sh.shrinkList, if_neg hlen]
    show Lz.Lazy.toList ⟨[([] : List T)], [Sh.listHalvesEval shr v]⟩ = _
    rw [Lz.Lazy.toList_head_append]
    show [([] : List T)] ++ Lz.Lazy.toList
        ⟨[], Lz.Eval.mk
          (if 2 < v.length then [v.take (v.length / 2), v.drop (v.length / 2)] else [])
          [Sh.listIndicesEval shr v] :: []⟩ = _
    rw [Lz.Lazy.toList_step, List.nil_append, Lz.Lazy.toList_head_append]
    show [([] : List T)] ++
        ((if 2 < v.length then [v.take (v.length / 2), v.drop (v.length / 2)] else [])
          ++ Lz.Lazy.toList ⟨[], Lz.Eval.mk []
              ((List.range v.length).map (fun i => Sh.listIdxEval shr i v)) :: []⟩) = _
    rw [Lz.Lazy.toList_step, List.nil_append, toList_idx_phase]
    simp only [List.append_assoc]

/-- C5 (amended): the shrink stream of a non-empty sequence `v` delivers, in
order: the empty sequence; if `length v > 2` the FIRST half then the second
half; the removals of each index in increasing order; then the element-wise
replacements interleaved round-robin across indices (first shrink of each
element in index order, then the second of each, and so on).  An empty
sequence yields no candidates. -/
theorem list_shrink_stream {T : Type} [Inhabited T] (shr : T → List T) (v : List T) :
    (v = [] → Lz.Lazy.toList (Sh.shrinkList shr v) = []) ∧
    (v ≠ [] → Lz.Lazy.toList (Sh.shrinkList shr v)
      = [[]]
        ++ (if 2 < v.length then [v.take (v.length / 2), v.drop (v.length / 2)] else [])
        ++ (List.range v.length).map (fun i => v.eraseIdx i)
        ++ Lz.roundRobin ((List.range v.length).map
            (fun i => (shr (v.getD i default)).map (fun s => v.set i s)))) :=
  shrinkList_stream_char shr v

/-- C5 counterexample: for `v = [1,2,3]` (elements shrunk with the uint rule)
the stream delivers the FIRST half `[1]` before the second half `[2,3]`, and
the replacement candidates come out round-robin across indices — the claim's
order (second half first, replacements grouped by index) does not match. -/
theorem list_shrink_claim_cex :
    Lz.Lazy.toList (Sh.shrinkList Sh.shrink_uint [1, 2, 3])
      = [[], [1], [2, 3], [2, 3], [1, 3], [1, 2],
         [0, 2, 3], [1, 0, 3], [1, 2, 0], [1, 1, 3], [1, 2, 1], [1, 2, 2]] ∧
    Lz.Lazy.toList (Sh.shrinkList Sh.shrink_uint [1, 2, 3])
      ≠ [[], [2, 3], [1], [2, 3], [1, 3], [1, 2],
         [0, 2, 3], [1, 0, 3], [1, 1, 3], [1, 2, 0], [1, 2, 1], [1, 2, 2]] := by
  have h := (shrinkList_stream_char Sh.shrink_uint [1, 2, 3]).2 (by decide)
  have harg : ((List.range ([1, 2, 3] : List Nat).length).map
      (fun i => (Sh.shrink_uint (([1, 2, 3] : List Nat).getD i default)).map
        (fun s => ([1, 2, 3] : List Nat).set i s)))
      = [[[0, 2, 3]], [[1, 0, 3], [1, 1, 3]], [[1, 2, 0], [1, 2, 1], [1, 2, 2]]] := by
    decide
  have hrr : Lz.roundRobin
        [[[0, 2, 3]], [[1, 0, 3], [1, 1, 3]], [[1, 2, 0], [1, 2, 1], [1, 2, 2]]]
      = [[0, 2, 3], [1, 0, 3], [1, 2, 0], [1, 1, 3], [1, 2, 1], ([1, 2, 2] : List Nat)] := by
    simp [Lz.roundRobin_cons_cons, Lz.roundRobin_cons_nil, Lz.roundRobin_nil]
  have hval : Lz.Lazy.toList (Sh.shrinkList Sh.shrink_uint [1, 2, 3])
      = [[], [1], [2, 3], [2, 3], [1, 3], [1, 2],
         [0, 2, 3], [1, 0, 3], [1, 2, 0], [1, 1, 3], [1, 2, 1], [1, 2, 2]] := by
    rw [h, harg, hrr]
    decide
  exact ⟨hval, by rw [hval]; decide⟩

/-- C5 witness: the characterization applied to the concrete input `[1,2,3]`. -/
theorem list_shrink_stream_w :
    ([1, 2, 3] : List Nat) ≠ [] ∧
    Lz.Lazy.toList (Sh.shrinkList Sh.shrink_uint [1, 2, 3])
      = [[]]
        ++ (if 2 < ([1, 2, 3] : List Nat).length then
              [([1, 2, 3] : List Nat).take (([1, 2, 3] : List Nat).length / 2),
               ([1, 2, 3] : List Nat).drop (([1, 2, 3] : List Nat).length / 2)] else [])
        ++ (List.range ([1, 2, 3] : List Nat).length).map
            (fun i => ([1, 2, 3] : List Nat).eraseIdx i)
        ++ Lz.roundRobin ((List.range ([1, 2, 3] : List Nat).length).map
            (fun i => (Sh.shrink_uint (([1, 2, 3] : List Nat).getD i default)).map
              (fun s => ([1, 2, 3] : List Nat).set i s))) :=
  ⟨by decide, (list_shrink_stream Sh.shrink_uint [1, 2, 3]).2 (by decide)⟩

theorem mpowersAux_lt (n : Nat) : ∀ (k d : Nat), n - d ≤ k →
    ∀ x ∈ Sh.mpowersAux n d, x < n := by
  intro k
  induction k with
  | zero =>
    intro d hd x hx
    rw [Sh.mpowersAux, dif_neg (by rintro ⟨h1, -⟩; omega)] at hx
    simp at hx
  | succ k ih =>
    intro d hd x hx
    rw [Sh.mpowersAux] at hx
    by_cases hc : d < n ∧ 2 ≤ d
    · rw [dif_pos hc] at hx
      rcases List.mem_cons.mp hx with rfl | hx
      · have h1 : 1 ≤ n / d := (Nat.one_le_div_iff (by omega)).mpr (by omega)
        omega
      · exact ih (d * 2) (by omega) x hx
    · rw [dif_neg hc] at hx
      simp at hx

theorem shrink_uint_lt (n : Nat) : ∀ x ∈ Sh.shrink_uint n, x < n := by
  intro x hx
  simp only [Sh.shrink_uint] at hx
  split_ifs at hx with h0 h1 h2 h8
  · simp at hx
  · simp at hx; omega
  · simp at hx; rcases hx with rfl | rfl <;> omega
  · simp at hx; rcases hx with rfl | rfl | rfl <;> omega
  · rw [Sh.mpowers_of_two] at hx
    rcases List.mem_cons.mp hx with rfl | hx
    · omega
    · exact mpowersAux_lt n n 2 (by omega) x hx

theorem shrink_uint_no_fix (n : Nat) : n ∉ Sh.shrink_uint n :=
  fun hmem => lt_irrefl n (shrink_uint_lt n n hmem)

theorem shrinkPair_toList {A B : Type} (shrA : A → List A) (shrB : B → List B)
    (a : A) (b : B) :
    Lz.Lazy.toList (Sh.shrinkPair shrA shrB (a, b))
      = Lz.roundRobin [(shrA a).map (fun s => (s, b)), (shrB b).map (fun s => (a, s))] := by
  show Lz.Lazy.toList ⟨[], [Lz.mapEval (fun s => (s, b)) (shrA a),
      Lz.mapEval (fun s => (a, s)) (shrB b)]⟩ = _
  rw [Lz.mapEval_eq_map (fun s => (s, b)) (shrA a),
    Lz.mapEval_eq_map (fun s => (a, s)) (shrB b)]
  exact Lz.Lazy.toList_chains [(shrA a).map (fun s => (s, b)), (shrB b).map (fun s => (a, s))]

theorem shrinkTriple_toList {A B C : Type} (shrA : A → List A) (shrB : B → List B)
    (shrC : C → List C) (v : A × B × C) :
    Lz.Lazy.toList (Sh.shrinkTriple shrA shrB shrC v)
      = Lz.roundRobin [(shrA v.1).map (fun s => (s, v.2.1, v.2.2)),
          (shrB v.2.1).map (fun s => (v.1, s, v.2.2)),
          (shrC v.2.2).map (fun s => (v.1, v.2.1, s))] := by
  show Lz.Lazy.toList ⟨[], [Lz.mapEval (fun s => (s, v.2.1, v.2.2)) (shrA v.1),
      Lz.mapEval (fun s => (v.1, s, v.2.2)) (shrB v.2.1),
      Lz.mapEval (fun s => (v.1, v.2.1, s)) (shrC v.2.2)]⟩ = _
  rw [Lz.mapEval_eq_map (fun s => (s, v.2.1, v.2.2)) (shrA v.1),
    Lz.mapEval_eq_map (fun s => (v.1, s, v.2.2)) (shrB v.2.1),
    Lz.mapEval_eq_map (fun s => (v.1, v.2.1, s)) (shrC v.2.2)]
  exact Lz.Lazy.toList_chains [(shrA v.1).map (fun s => (s, v.2.1, v.2.2)),
    (shrB v.2.1).map (fun s => (v.1, s, v.2.2)),
    (shrC v.2.2).map (fun s => (v.1, v.2.1, s))]

theorem shrinkQuad_toList {A B C D : Type} (shrA : A → List A) (shrB : B → List B)
    (shrC : C → List C) (shrD : D → List D) (v : A × B × C × D) :
    Lz.Lazy.toList (Sh.shrinkQuad shrA shrB shrC shrD v)
      = Lz.roundRobin [(shrA v.1).map (fun s => (s, v.2.1, v.2.2.1, v.2.2.2)),
          (shrB v.2.1).map (fun s => (v.1, s, v.2.2.1, v.2.2.2)),
          (shrC v.2.2.1).map (fun s => (v.1, v.2.1, s, v.2.2.2)),
          (shrD v.2.2.2).map (fun s => (v.1, v.2.1, v.2.2.1, s))] := by
  show Lz.Lazy.toList ⟨[], [Lz.mapEval (fun s => (s, v.2.1, v.2.2.1, v.2.2.2)) (shrA v.1),
      Lz.mapEval (fun s => (v.1, s, v.2.2.1, v.2.2.2)) (shrB v.2.1),
      Lz.mapEval (fun s => (v.1, v.2.1, s, v.2.2.2)) (shrC v.2.2.1),
      Lz.mapEval (fun s => (v.1, v.2.1, v.2.2.1, s)) (shrD v.2.2.2)]⟩ = _
  rw [Lz.mapEval_eq_map (fun s => (s, v.2.1, v.2.2.1, v.2.2.2)) (shrA v.1),
    Lz.mapEval_eq_map (fun s => (v.1, s, v.2.2.1, v.2.2.2)) (shrB v.2.1),
    Lz.mapEval_eq_map (fun s => (v.1, v.2.1, s, v.2.2.2)) (shrC v.2.2.1),
    Lz.mapEval_eq_map (fun s => (v.1, v.2.1, v.2.2.1, s)) (shrD v.2.2.2)]
  exact Lz.Lazy.toList_chains [(shrA v.1).map (fun s => (s, v.2.1, v.2.2.1, v.2.2.2)),
    (shrB v.2.1).map (fun s => (v.1, s, v.2.2.1, v.2.2.2)),
    (shrC v.2.2.1).map (fun s => (v.1, v.2.1, s, v.2.2.2)),
    (shrD v.2.2.2).map (fun s => (v.1, v.2.1, v.2.2.1, s))]

theorem shrinkQuint_toList {A B C D E : Type} (shrA : A → List A) (shrB : B → List B)
    (shrC : C → List C) (shrD : D → List D) (shrE : E → List E) (v : A × B × C × D × E) :
    Lz.Lazy.toList (Sh.shrinkQuint shrA shrB shrC shrD shrE v)
      = Lz.roundRobin [(shrA v.1).map (fun s => (s, v.2.1, v.2.2.1, v.2.2.2.1, v.2.2.2.2)),
          (shrB v.2.1).map (fun s => (v.1, s, v.2.2.1, v.2.2.2.1, v.2.2.2.2)),
          (shrC v.2.2.1).map (fun s => (v.1, v.2.1, s, v.2.2.2.1, v.2.2.2.2)),
          (shrD v.2.2.2.1).map (fun s => (v.1, v.2.1, v.2.2.1, s, v.2.2.2.2)),
          (shrE v.2.2.2.2).map (fun s => (v.1, v.2.1, v.2.2.1, v.2.2.2.1, s))] := by
  show Lz.Lazy.toList ⟨[],
      [Lz.mapEval (fun s => (s, v.2.1, v.2.2.1, v.2.2.2.1, v.2.2.2.2)) (shrA v.1),
      Lz.mapEval (fun s => (v.1, s, v.2.2.1, v.2.2.2.1, v.2.2.2.2)) (shrB v.2.1),
      Lz.mapEval (fun s => (v.1, v.2.1, s, v.2.2.2.1, v.2.2.2.2)) (shrC v.2.2.1),
      Lz.mapEval (fun s => (v.1, v.2.1, v.2.2.1, s, v.2.2.2.2)) (shrD v.2.2.2.1),
      Lz.mapEval (fun s => (v.1, v.2.1, v.2.2.1, v.2.2.2.1, s)) (shrE v.2.2.2.2)]⟩ = _
  rw [Lz.mapEval_eq_map (fun s => (s, v.2.1, v.2.2.1, v.2.2.2.1, v.2.2.2.2)) (shrA v.1),
    Lz.mapEval_eq_map (fun s => (v.1, s, v.2.2.1, v.2.2.2.1, v.2.2.2.2)) (shrB v.2.1),
    Lz.mapEval_eq_map (fun s => (v.1, v.2.1, s, v.2.2.2.1, v.2.2.2.2)) (shrC v.2.2.1),
    Lz.mapEval_eq_map (fun s => (v.1, v.2.1, v.2.2.1, s, v.2.2.2.2)) (shrD v.2.2.2.1),
    Lz.mapEval_eq_map (fun s => (v.1, v.2.1, v.2.2.1, v.2.2.2.1, s)) (shrE v.2.2.2.2)]
  exact Lz.Lazy.toList_chains
    [(shrA v.1).map (fun s => (s, v.2.1, v.2.2.1, v.2.2.2.1, v.2.2.2.2)),
    (shrB v.2.1).map (fun s => (v.1, s, v.2.2.1, v.2.2.2.1, v.2.2.2.2)),
    (shrC v.2.2.1).map (fun s => (v.1, v.2.1, s, v.2.2.2.1, v.2.2.2.2)),
    (shrD v.2.2.2.1).map (fun s => (v.1, v.2.1, v.2.2.1, s, v.2.2.2.2)),
    (shrE v.2.2.2.2).map (fun s => (v.1, v.2.1, v.2.2.1, v.2.2.2.1, s))]

theorem shrinkSext_toList {A B C D E F : Type} (shrA : A → List A) (shrB : B → List B)
    (shrC : C → List C) (shrD : D → List D) (shrE : E → List E) (shrF : F → List F)
    (v : A × B × C × D × E × F) :
    Lz.Lazy.toList (Sh.shrinkSext shrA shrB shrC shrD shrE shrF v)
      = Lz.roundRobin
          [(shrA v.1).map (fun s => (s, v.2.1, v.2.2.1, v.2.2.2.1, v.2.2.2.2.1, v.2.2.2.2.2)),
          (shrB v.2.1).map (fun s => (v.1, s, v.2.2.1, v.2.2.2.1, v.2.2.2.2.1, v.2.2.2.2.2)),
          (shrC v.2.2.1).map (fun s => (v.1, v.2.1, s, v.2.2.2.1, v.2.2.2.2.1, v.2.2.2.2.2)),
          (shrD v.2.2.2.1).map (fun s => (v.1, v.2.1, v.2.2.1, s, v.2.2.2.2.1, v.2.2.2.2.2)),
          (shrE v.2.2.2.2.1).map (fun s => (v.1, v.2.1, v.2.2.1, v.2.2.2.1, s, v.2.2.2.2.2)),
          (shrF v.2.2.2.2.2).map (fun s => (v.1, v.2.1, v.2.2.1, v.2.2.2.1, v.2.2.2.2.1, s))] := by
  show Lz.Lazy.toList ⟨[],
      [Lz.mapEval (fun s => (s, v.2.1, v.2.2.1, v.2.2.2.1, v.2.2.2.2.1, v.2.2.2.2.2)) (shrA v.1),
      Lz.mapEval (fun s => (v.1, s, v.2.2.1, v.2.2.2.1, v.2.2.2.2.1, v.2.2.2.2.2)) (shrB v.2.1),
      Lz.mapEval (fun s => (v.1, v.2.1, s, v.2.2.2.1, v.2.2.2.2.1, v.2.2.2.2.2)) (shrC v.2.2.1),
      Lz.mapEval (fun s => (v.1, v.2.1, v.2.2.1, s, v.2.2.2.2.1, v.2.2.2.2.2)) (shrD v.2.2.2.1),
      Lz.mapEval (fun s => (v.1, v.2.1, v.2.2.1, v.2.2.2.1, s, v.2.2.2.2.2)) (shrE v.2.2.2.2.1),
      Lz.mapEval (fun s => (v.1, v.2.1, v.2.2.1, v.2.2.2.1, v.2.2.2.2.1, s)) (shrF v.2.2.2.2.2)]⟩ = _
  rw [Lz.mapEval_eq_map
      (fun s => (s, v.2.1, v.2.2.1, v.2.2.2.1, v.2.2.2.2.1, v.2.2.2.2.2)) (shrA v.1),
    Lz.mapEval_eq_map
      (fun s => (v.1, s, v.2.2.1, v.2.2.2.1, v.2.2.2.2.1, v.2.2.2.2.2)) (shrB v.2.1),
    Lz.mapEval_eq_map
      (fun s => (v.1, v.2.1, s, v.2.2.2.1, v.2.2.2.2.1, v.2.2.2.2.2)) (shrC v.2.2.1),
    Lz.mapEval_eq_map
      (fun s => (v.1, v.2.1, v.2.2.1, s, v.2.2.2.2.1, v.2.2.2.2.2)) (shrD v.2.2.2.1),
    Lz.mapEval_eq_map
      (fun s => (v.1, v.2.1, v.2.2.1, v.2.2.2.1, s, v.2.2.2.2.2)) (shrE v.2.2.2.2.1),
    Lz.mapEval_eq_map
      (fun s => (v.1, v.2.1, v.2.2.1, v.2.2.2.1, v.2.2.2.2.1, s)) (shrF v.2.2.2.2.2)]
  exact Lz.Lazy.toList_chains
    [(shrA v.1).map (fun s => (s, v.2.1, v.2.2.1, v.2.2.2.1, v.2.2.2.2.1, v.2.2.2.2.2)),
    (shrB v.2.1).map (fun s => (v.1, s, v.2.2.1, v.2.2.2.1, v.2.2.2.2.1, v.2.2.2.2.2)),
    (shrC v.2.2.1).map (fun s => (v.1, v.2.1, s, v.2.2.2.1, v.2.2.2.2.1, v.2.2.2.2.2)),
    (shrD v.2.2.2.1).map (fun s => (v.1, v.2.1, v.2.2.1, s, v.2.2.2.2.1, v.2.2.2.2.2)),
    (shrE v.2.2.2.2.1).map (fun s => (v.1, v.2.1, v.2.2.1, v.2.2.2.1, s, v.2.2.2.2.2)),
    (shrF v.2.2.2.2.2).map (fun s => (v.1, v.2.1, v.2.2.1, v.2.2.2.1, v.2.2.2.2.1, s))]

theorem shrinkResult_toList {T U : Type} (shrT : T → List T) (shrU : U → List U) :
    (∀ x : T, Lz.Lazy.toList (Sh.shrinkResult shrT shrU (.ok x))
        = (shrT x).map Except.ok) ∧
    (∀ x : U, Lz.Lazy.toList (Sh.shrinkResult shrT shrU (.error x))
        = (shrU x).map Except.error) := by
  constructor <;> intro x <;>
    exact Lz.Lazy.toList_single_chain _ _

theorem shrinkEither_toList {T U : Type} (shrT : T → List T) (shrU : U → List U) :
    (∀ x : T, Lz.Lazy.toList (Sh.shrinkEither shrT shrU (.inl x))
        = (shrT x).map Sum.inl) ∧
    (∀ x : U, Lz.Lazy.toList (Sh.shrinkEither shrT shrU (.inr x))
        = (shrU x).map Sum.inr) := by
  constructor <;> intro x <;>
    exact Lz.Lazy.toList_single_chain _ _

theorem shrinkBox_toList {T : Type} (shr : T → List T) (v : Sh.Box T) :
    Lz.Lazy.toList (Sh.shrinkBox shr v) = (shr v.val).map Sh.Box.mk :=
  Lz.Lazy.toList_single_chain _ _

theorem shrinkString_toList (s : String) :
    Lz.Lazy.toList (Sh.shrinkString s)
      = (Lz.Lazy.toList (Sh.shrinkList (fun _ => []) s.data)).map String.mk := by
  by_cases h : 0 < s.data.length
  · show Lz.Lazy.toList (if 0 < s.data.length then
        Lz.Lazy.push_map Lz.Lazy.new
          (Lz.Lazy.toList (Sh.shrinkList (fun _ => []) s.data)) String.mk
      else Lz.Lazy.new) = _
    rw [if_pos h]
    exact Lz.Lazy.toList_single_chain _ _
  · show Lz.Lazy.toList (if 0 < s.data.length then
        Lz.Lazy.push_map Lz.Lazy.new
          (Lz.Lazy.toList (Sh.shrinkList (fun _ => []) s.data)) String.mk
      else Lz.Lazy.new) = _
    rw [if_neg h,
      show Sh.shrinkList (fun _ => ([] : List Char)) s.data = Lz.Lazy.new from by
        rw [Sh.shrinkList, if_pos (by omega)]]
    simp [Lz.Lazy.new, Lz.Lazy.toList_empty]

theorem shrinkList_no_fix {T : Type} [Inhabited T] (shr : T → List T)
    (hshr : ∀ x, x ∉ shr x) (v : List T) :
    v ∉ Lz.Lazy.toList (Sh.shrinkList shr v) := by
  by_cases hv : v = []
  · rw [(shrinkList_stream_char shr v).1 hv]
    simp
  · rw [(shrinkList_stream_char shr v).2 hv]
    intro hmem
    rcases List.mem_append.mp hmem with hm | h4
    · rcases List.mem_append.mp hm with hm2 | h3
      · rcases List.mem_append.mp hm2 with h1 | h2
        · exact hv (List.mem_singleton.mp h1)
        · by_cases hl : 2 < v.length
          · rw [if_pos hl] at h2
            rcases List.mem_cons.mp h2 with heq | h2'
            · have hlen := congrArg List.length heq
              simp [List.length_take] at hlen
              omega
            · rcases List.mem_cons.mp h2' with heq | h2''
              · have hlen := congrArg List.length heq
                simp [List.length_drop] at hlen
                omega
              · simp at h2''
          · rw [if_neg hl] at h2
            simp at h2
      · obtain ⟨i, hi, heq⟩ := List.mem_map.mp h3
        have hi' : i < v.length := List.mem_range.mp hi
        have hlen := congrArg List.length heq
        rw [List.length_eraseIdx, if_pos hi'] at hlen
        have hne : v.length ≠ 0 := by simpa using hv
        omega
    · obtain ⟨ρ, hρ, hvρ⟩ := (Lz.mem_roundRobin_iff _ _).mp h4
      obtain ⟨i, hi, hρ'⟩ := List.mem_map.mp hρ
      have hi' : i < v.length := List.mem_range.mp hi
      rw [← hρ'] at hvρ
      obtain ⟨s, hs, hset⟩ := List.mem_map.mp hvρ
      have hlen : i < (v.set i s).length := by rw [List.length_set]; exact hi'
      have h1 : (v.set i s).getD i default = s := by
        rw [List.getD_eq_getElem _ _ hlen, List.getElem_set_self]
      have h2 : (v.set i s).getD i default = v.getD i default := by rw [hset]
      rw [h1] at h2
      rw [← h2] at hs
      exact hshr _ hs

theorem map_eraseIdx {α β : Type} (f : α → β) :
    ∀ (l : List α) (i : Nat), (l.eraseIdx i).map f = (l.map f).eraseIdx i := by
  intro l
  induction l with
  | nil => intro i; simp [List.eraseIdx]
  | cons a l ih =>
    intro i
    cases i with
    | zero => simp [List.eraseIdx]
    | succ i => simp [List.eraseIdx, ih]

theorem set_getElem_self {α : Type} (l : List α) (i : Nat) (hi : i < l.length) :
    l.set i l[i] = l := by
  refine List.ext_getElem (by rw [List.length_set]) fun n h1 h2 => ?_
  rw [List.getElem_set]
  split
  · next heq => subst heq; rfl
  · rfl

theorem nodup_not_mem_eraseIdx {α : Type} (l : List α) (hnd : l.Nodup)
    (i : Nat) (hi : i < l.length) : l[i] ∉ l.eraseIdx i := by
  intro hmem
  obtain ⟨j, hj, hje⟩ := List.mem_iff_getElem.mp hmem
  have hjlen : j < l.length - 1 := by
    rw [List.length_eraseIdx, if_pos hi] at hj
    exact hj
  rw [List.getElem_eraseIdx] at hje
  split at hje
  · next hji =>
    have := (hnd.getElem_inj_iff).mp hje
    omega
  · next hji =>
    have := (hnd.getElem_inj_iff).mp hje
    omega

theorem collectMap_nil {K V : Type} [DecidableEq K] (k : K) :
    Sh.collectMap ([] : List (K × V)) k = none := rfl

theorem collectMap_eq_none_iff {K V : Type} [DecidableEq K]
    (l : List (K × V)) (k : K) :
    Sh.collectMap l k = none ↔ k ∉ l.map Prod.fst := by
  show (l.reverse.find? (fun p => decide (p.1 = k))).map Prod.snd = none ↔ _
  rw [Option.map_eq_none', List.find?_eq_none]
  constructor
  · intro h hk
    obtain ⟨p, hp, hpk⟩ := List.mem_map.mp hk
    exact h p (List.mem_reverse.mpr hp) (by simpa using hpk)
  · intro h p hp hpk
    exact h (List.mem_map.mpr ⟨p, List.mem_reverse.mp hp, by simpa using hpk⟩)

theorem collectMap_cons {K V : Type} [DecidableEq K] (q : K × V)
    (l : List (K × V)) (k : K) :
    Sh.collectMap (q :: l) k
      = (Sh.collectMap l k).or (if q.1 = k then some q.2 else none) := by
  show ((q :: l).reverse.find? (fun p => decide (p.1 = k))).map Prod.snd = _
  rw [List.reverse_cons, List.find?_append]
  cases hf : l.reverse.find? (fun p => decide (p.1 = k)) with
  | some p =>
    have hcl : Sh.collectMap l k = some p.2 := by
      show (l.reverse.find? (fun p => decide (p.1 = k))).map Prod.snd = some p.2
      rw [hf]; rfl
    rw [hcl]
    rfl
  | none =>
    have hcl : Sh.collectMap l k = none := by
      show (l.reverse.find? (fun p => decide (p.1 = k))).map Prod.snd = none
      rw [hf]; rfl
    rw [hcl, Option.none_or, Option.none_or]
    by_cases hq : q.1 = k
    · rw [if_pos hq, List.find?_cons, decide_eq_true hq]
      rfl
    · rw [if_neg hq, List.find?_cons, decide_eq_false hq]
      rfl

theorem collectMap_mem {K V : Type} [DecidableEq K] (l : List (K × V))
    (hnd : (l.map Prod.fst).Nodup) (p : K × V) (hp : p ∈ l) :
    Sh.collectMap l p.1 = some p.2 := by
  induction l with
  | nil => simp at hp
  | cons q rest ih =>
    rw [collectMap_cons]
    rw [List.map_cons, List.nodup_cons] at hnd
    rcases List.mem_cons.mp hp with rfl | hp'
    · rw [(collectMap_eq_none_iff rest p.1).mpr hnd.1, Option.none_or, if_pos rfl]
    · rw [ih hnd.2 hp']
      rfl

theorem collectMap_getElem {K V : Type} [DecidableEq K] (l : List (K × V))
    (hnd : (l.map Prod.fst).Nodup) (i : Nat) (hi : i < l.length) :
    Sh.collectMap l l[i].1 = some l[i].2 :=
  collectMap_mem l hnd l[i] (List.getElem_mem hi)

theorem shrinkHashMap_no_fix {K V : Type} [DecidableEq K] [Inhabited K] [Inhabited V]
    (shrK : K → List K) (shrV : V → List V)
    (hK : ∀ k, k ∉ shrK k) (hV : ∀ v, v ∉ shrV v)
    (pairs : List (K × V)) (hnd : (pairs.map Prod.fst).Nodup) :
    Sh.collectMap pairs ∉ Lz.Lazy.toList (Sh.shrinkHashMap shrK shrV pairs) := by
  have hklen : (pairs.map Prod.fst).length = pairs.length := List.length_map _ _
  show Sh.collectMap pairs ∉ Lz.Lazy.toList
      (if 0 < pairs.length then
        Lz.Lazy.push_map Lz.Lazy.new
          (Lz.Lazy.toList (Sh.shrinkList
            (fun p => Lz.Lazy.toList (Sh.shrinkPair shrK shrV p)) pairs))
          Sh.collectMap
      else Lz.Lazy.new)
  by_cases hp : 0 < pairs.length
  case neg =>
    rw [if_neg hp]
    simp [Lz.Lazy.new, Lz.Lazy.toList_empty]
  case pos =>
    rw [if_pos hp]
    have htl : Lz.Lazy.toList (Lz.Lazy.push_map Lz.Lazy.new
        (Lz.Lazy.toList (Sh.shrinkList
          (fun p => Lz.Lazy.toList (Sh.shrinkPair shrK shrV p)) pairs))
        Sh.collectMap)
      = (Lz.Lazy.toList (Sh.shrinkList
          (fun p => Lz.Lazy.toList (Sh.shrinkPair shrK shrV p)) pairs)).map
            Sh.collectMap := Lz.Lazy.toList_single_chain _ _
    rw [htl]
    intro hmem
    obtain ⟨l', hl', heq⟩ := List.mem_map.mp hmem
    have hvne : pairs ≠ [] := by intro h; rw [h] at hp; simp at hp
    rw [(shrinkList_stream_char _ pairs).2 hvne] at hl'
    rcases List.mem_append.mp hl' with hm | h4
    · rcases List.mem_append.mp hm with hm2 | h3
      · rcases List.mem_append.mp hm2 with h1 | h2
        · -- candidate: the empty pair list, i.e. the empty map
          rw [List.mem_singleton.mp h1] at heq
          have hco := congrFun heq pairs[0].1
          rw [collectMap_nil, collectMap_getElem pairs hnd 0 hp] at hco
          exact Option.noConfusion hco
        · -- candidates: the two halves
          by_cases hl2 : 2 < pairs.length
          · rw [if_pos hl2] at h2
            rcases List.mem_cons.mp h2 with htake | h2'
            · -- first half: the last key is missing
              have hj : pairs.length - 1 < pairs.length := by omega
              have hnotin : pairs[pairs.length - 1].1
                  ∉ (pairs.take (pairs.length / 2)).map Prod.fst := by
                rw [List.map_take]
                intro hmem'
                obtain ⟨jj, hjj, hje⟩ := List.mem_iff_getElem.mp hmem'
                have hjj2 : jj < (pairs.map Prod.fst).length := by
                  rw [List.length_take] at hjj
                  omega
                rw [List.getElem_take] at hje
                have hb1 : pairs.length - 1 < (pairs.map Prod.fst).length := by omega
                have hje2 : (pairs.map Prod.fst)[jj]
                    = (pairs.map Prod.fst)[pairs.length - 1] := by
                  rw [hje, List.getElem_map]
                have hjid : jj = pairs.length - 1 := hnd.getElem_inj_iff.mp hje2
                rw [List.length_take] at hjj
                omega
              rw [htake] at heq
              have hco := congrFun heq pairs[pairs.length - 1].1
              rw [(collectMap_eq_none_iff _ _).mpr hnotin,
                collectMap_getElem pairs hnd _ hj] at hco
              exact Option.noConfusion hco
            · rcases List.mem_cons.mp h2' with hdrop | hnil
              · -- second half: the first key is missing
                have hnotin : pairs[0].1
                    ∉ (pairs.drop (pairs.length / 2)).map Prod.fst := by
                  rw [List.map_drop]
                  intro hmem'
                  obtain ⟨jj, hjj, hje⟩ := List.mem_iff_getElem.mp hmem'
                  rw [List.getElem_drop] at hje
                  have hjj2 : pairs.length / 2 + jj < (pairs.map Prod.fst).length := by
                    rw [List.length_drop] at hjj
                    omega
                  have hb1 : 0 < (pairs.map Prod.fst).length := by omega
                  have hje2 : (pairs.map Prod.fst)[pairs.length / 2 + jj]
                      = (pairs.map Prod.fst)[0] := by
                    rw [hje, List.getElem_map]
                  have hjid : pairs.length / 2 + jj = 0 := hnd.getElem_inj_iff.mp hje2
                  omega
                rw [hdrop] at heq
                have hco := congrFun heq pairs[0].1
                rw [(collectMap_eq_none_iff _ _).mpr hnotin,
                  collectMap_getElem pairs hnd 0 hp] at hco
                exact Option.noConfusion hco
              · simp at hnil
          · rw [if_neg hl2] at h2
            simp at h2
      · -- candidates: one pair removed
        obtain ⟨i, hi, heq'⟩ := List.mem_map.mp h3
        have hi' : i < pairs.length := List.mem_range.mp hi
        have hnotin : pairs[i].1 ∉ (pairs.eraseIdx i).map Prod.fst := by
          rw [map_eraseIdx]
          have hb1 : i < (pairs.map Prod.fst).length := by omega
          have hgm : (pairs.map Prod.fst)[i] = pairs[i].1 :=
            List.getElem_map _
          rw [← hgm]
          exact nodup_not_mem_eraseIdx _ hnd i hb1
        rw [← heq'] at heq
        have hco := congrFun heq pairs[i].1
        rw [(collectMap_eq_none_iff _ _).mpr hnotin,
          collectMap_getElem pairs hnd i hi'] at hco
        exact Option.noConfusion hco
    · -- candidates: one pair shrunk in place
      obtain ⟨ρ, hρ, hvρ⟩ := (Lz.mem_roundRobin_iff _ _).mp h4
      obtain ⟨i, hi, hρ'⟩ := List.mem_map.mp hρ
      have hi' : i < pairs.length := List.mem_range.mp hi
      rw [← hρ'] at hvρ
      obtain ⟨p', hp', hset⟩ := List.mem_map.mp hvρ
      rw [List.getD_eq_getElem _ _ hi'] at hp'
      have hpl : Lz.Lazy.toList (Sh.shrinkPair shrK shrV pairs[i])
          = Lz.roundRobin [(shrK pairs[i].1).map (fun s => (s, pairs[i].2)),
              (shrV pairs[i].2).map (fun s => (pairs[i].1, s))] :=
        shrinkPair_toList shrK shrV pairs[i].1 pairs[i].2
      rw [hpl] at hp'
      obtain ⟨σ, hσ, hpσ⟩ := (Lz.mem_roundRobin_iff _ _).mp hp'
      rcases List.mem_cons.mp hσ with hσ1 | hσ2
      · -- the key was shrunk: key pairs[i].1 vanishes from the map
        rw [hσ1] at hpσ
        obtain ⟨k', hk', hpk⟩ := List.mem_map.mp hpσ
        have hkne : k' ≠ pairs[i].1 := fun h => hK _ (h ▸ hk')
        have hp1 : p'.1 = k' := by rw [← hpk]
        have hnotin : pairs[i].1 ∉ (pairs.set i p').map Prod.fst := by
          rw [List.map_set]
          intro hmem'
          obtain ⟨jj, hjj, hje⟩ := List.mem_iff_getElem.mp hmem'
          have hjj2 : jj < (pairs.map Prod.fst).length := by
            rw [List.length_set] at hjj
            exact hjj
          rw [List.getElem_set] at hje
          by_cases hij : i = jj
          · rw [if_pos hij] at hje
            rw [hp1] at hje
            exact hkne hje
          · rw [if_neg hij] at hje
            have hb1 : i < (pairs.map Prod.fst).length := by omega
            have hje2 : (pairs.map Prod.fst)[jj]
                = (pairs.map Prod.fst)[i] := by
              rw [hje, List.getElem_map]
            exact hij (hnd.getElem_inj_iff.mp hje2).symm
        rw [← hset] at heq
        have hco := congrFun heq pairs[i].1
        rw [(collectMap_eq_none_iff _ _).mpr hnotin,
          collectMap_getElem pairs hnd i hi'] at hco
        exact Option.noConfusion hco
      · rcases List.mem_cons.mp hσ2 with hσ1 | hnil
        · -- the value was shrunk: the map changes at key pairs[i].1
          rw [hσ1] at hpσ
          obtain ⟨v', hv', hpk⟩ := List.mem_map.mp hpσ
          have hvne' : v' ≠ pairs[i].2 := fun h => hV _ (h ▸ hv')
          have hp1 : p'.1 = pairs[i].1 := by rw [← hpk]
          have hp2 : p'.2 = v' := by rw [← hpk]
          have hkeys : (pairs.set i p').map Prod.fst = pairs.map Prod.fst := by
            rw [List.map_set, hp1]
            have hb1 : i < (pairs.map Prod.fst).length := by omega
            have hgm : (pairs.map Prod.fst)[i] = pairs[i].1 :=
              List.getElem_map _
            rw [← hgm]
            exact set_getElem_self _ i hb1
          have hnd' : ((pairs.set i p').map Prod.fst).Nodup := by
            rw [hkeys]; exact hnd
          have hmem' : p' ∈ pairs.set i p' := List.mem_set pairs i hi' p'
          have hco1 : Sh.collectMap (pairs.set i p') p'.1 = some p'.2 :=
            collectMap_mem _ hnd' p' hmem'
          rw [← hset] at heq
          have hco := congrFun heq p'.1
          rw [hco1, hp1, collectMap_getElem pairs hnd i hi'] at hco
          have hsome := Option.some.inj hco
          rw [hp2] at hsome
          exact hvne' hsome
        · simp at hnil

theorem shrinkPair_no_fix {A B : Type} (shrA : A → List A) (shrB : B → List B)
    (hA : ∀ a, a ∉ shrA a) (hB : ∀ b, b ∉ shrB b) (v : A × B) :
    v ∉ Lz.Lazy.toList (Sh.shrinkPair shrA shrB v) := by
  obtain ⟨a, b⟩ := v
  rw [shrinkPair_toList]
  intro hmem
  obtain ⟨ρ, hρ, hvρ⟩ := (Lz.mem_roundRobin_iff _ _).mp hmem
  rcases List.mem_cons.mp hρ with h | h'
  · rw [h] at hvρ
    obtain ⟨s, hs, he⟩ := List.mem_map.mp hvρ
    have hsa : s = a := congrArg Prod.fst he
    exact hA a (hsa ▸ hs)
  · rcases List.mem_cons.mp h' with h | hnil
    · rw [h] at hvρ
      obtain ⟨s, hs, he⟩ := List.mem_map.mp hvρ
      have hsb : s = b := congrArg Prod.snd he
      exact hB b (hsb ▸ hs)
    · simp at hnil

theorem shrinkTriple_no_fix {A B C : Type} (shrA : A → List A) (shrB : B → List B)
    (shrC : C → List C) (hA : ∀ a, a ∉ shrA a) (hB : ∀ b, b ∉ shrB b)
    (hC : ∀ c, c ∉ shrC c) (v : A × B × C) :
    v ∉ Lz.Lazy.toList (Sh.shrinkTriple shrA shrB shrC v) := by
  rw [shrinkTriple_toList]
  intro hmem
  obtain ⟨ρ, hρ, hvρ⟩ := (Lz.mem_roundRobin_iff _ _).mp hmem
  simp only [List.mem_cons, List.not_mem_nil, or_false] at hρ
  rcases hρ with h | h | h <;> rw [h] at hvρ <;>
    obtain ⟨s, hs, he⟩ := List.mem_map.mp hvρ
  · have hse : s = v.1 := congrArg Prod.fst he
    exact hA v.1 (hse ▸ hs)
  · have hse : s = v.2.1 := congrArg (fun t => t.2.1) he
    exact hB v.2.1 (hse ▸ hs)
  · have hse : s = v.2.2 := congrArg (fun t => t.2.2) he
    exact hC v.2.2 (hse ▸ hs)

theorem shrinkQuad_no_fix {A B C D : Type} (shrA : A → List A) (shrB : B → List B)
    (shrC : C → List C) (shrD : D → List D) (hA : ∀ a, a ∉ shrA a)
    (hB : ∀ b, b ∉ shrB b) (hC : ∀ c, c ∉ shrC c) (hD : ∀ d, d ∉ shrD d)
    (v : A × B × C × D) :
    v ∉ Lz.Lazy.toList (Sh.shrinkQuad shrA shrB shrC shrD v) := by
  rw [shrinkQuad_toList]
  intro hmem
  obtain ⟨ρ, hρ, hvρ⟩ := (Lz.mem_roundRobin_iff _ _).mp hmem
  simp only [List.mem_cons, List.not_mem_nil, or_false] at hρ
  rcases hρ with h | h | h | h <;> rw [h] at hvρ <;>
    obtain ⟨s, hs, he⟩ := List.mem_map.mp hvρ
  · have hse : s = v.1 := congrArg Prod.fst he
    exact hA v.1 (hse ▸ hs)
  · have hse : s = v.2.1 := congrArg (fun t => t.2.1) he
    exact hB v.2.1 (hse ▸ hs)
  · have hse : s = v.2.2.1 := congrArg (fun t => t.2.2.1) he
    exact hC v.2.2.1 (hse ▸ hs)
  · have hse : s = v.2.2.2 := congrArg (fun t => t.2.2.2) he
    exact hD v.2.2.2 (hse ▸ hs)

theorem shrinkQuint_no_fix {A B C D E : Type} (shrA : A → List A) (shrB : B → List B)
    (shrC : C → List C) (shrD : D → List D) (shrE : E → List E)
    (hA : ∀ a, a ∉ shrA a) (hB : ∀ b, b ∉ shrB b) (hC : ∀ c, c ∉ shrC c)
    (hD : ∀ d, d ∉ shrD d) (hE : ∀ e, e ∉ shrE e) (v : A × B × C × D × E) :
    v ∉ Lz.Lazy.toList (Sh.shrinkQuint shrA shrB shrC shrD shrE v) := by
  rw [shrinkQuint_toList]
  intro hmem
  obtain ⟨ρ, hρ, hvρ⟩ := (Lz.mem_roundRobin_iff _ _).mp hmem
  simp only [List.mem_cons, List.not_mem_nil, or_false] at hρ
  rcases hρ with h | h | h | h | h <;> rw [h] at hvρ <;>
    obtain ⟨s, hs, he⟩ := List.mem_map.mp hvρ
  · have hse : s = v.1 := congrArg Prod.fst he
    exact hA v.1 (hse ▸ hs)
  · have hse : s = v.2.1 := congrArg (fun t => t.2.1) he
    exact hB v.2.1 (hse ▸ hs)
  · have hse : s = v.2.2.1 := congrArg (fun t => t.2.2.1) he
    exact hC v.2.2.1 (hse ▸ hs)
  · have hse : s = v.2.2.2.1 := congrArg (fun t => t.2.2.2.1) he
    exact hD v.2.2.2.1 (hse ▸ hs)
  · have hse : s = v.2.2.2.2 := congrArg (fun t => t.2.2.2.2) he
    exact hE v.2.2.2.2 (hse ▸ hs)

theorem shrinkSext_no_fix {A B C D E F : Type} (shrA : A → List A)
    (shrB : B → List B) (shrC : C → List C) (shrD : D → List D)
    (shrE : E → List E) (shrF : F → List F)
    (hA : ∀ a, a ∉ shrA a) (hB : ∀ b, b ∉ shrB b) (hC : ∀ c, c ∉ shrC c)
    (hD : ∀ d, d ∉ shrD d) (hE : ∀ e, e ∉ shrE e) (hF : ∀ f, f ∉ shrF f)
    (v : A × B × C × D × E × F) :
    v ∉ Lz.Lazy.toList (Sh.shrinkSext shrA shrB shrC shrD shrE shrF v) := by
  rw [shrinkSext_toList]
  intro hmem
  obtain ⟨ρ, hρ, hvρ⟩ := (Lz.mem_roundRobin_iff _ _).mp hmem
  simp only [List.mem_cons, List.not_mem_nil, or_false] at hρ
  rcases hρ with h | h | h | h | h | h <;> rw [h] at hvρ <;>
    obtain ⟨s, hs, he⟩ := List.mem_map.mp hvρ
  · have hse : s = v.1 := congrArg Prod.fst he
    exact hA v.1 (hse ▸ hs)
  · have hse : s = v.2.1 := congrArg (fun t => t.2.1) he
    exact hB v.2.1 (hse ▸ hs)
  · have hse : s = v.2.2.1 := congrArg (fun t => t.2.2.1) he
    exact hC v.2.2.1 (hse ▸ hs)
  · have hse : s = v.2.2.2.1 := congrArg (fun t => t.2.2.2.1) he
    exact hD v.2.2.2.1 (hse ▸ hs)
  · have hse : s = v.2.2.2.2.1 := congrArg (fun t => t.2.2.2.2.1) he
    exact hE v.2.2.2.2.1 (hse ▸ hs)
  · have hse : s = v.2.2.2.2.2 := congrArg (fun t => t.2.2.2.2.2) he
    exact hF v.2.2.2.2.2 (hse ▸ hs)

theorem shrinkOption_no_fix {T : Type} (shr : T → List T)
    (hshr : ∀ x, x ∉ shr x) (v : Option T) :
    v ∉ Lz.Lazy.toList (Sh.shrinkOption shr v) := by
  cases v with
  | none => rw [(shrinkOption_toList shr).2]; simp
  | some x =>
    rw [(shrinkOption_toList shr).1 x]
    intro hmem
    rcases List.mem_cons.mp hmem with h | h
    · exact Option.noConfusion h
    · obtain ⟨s, hs, he⟩ := List.mem_map.mp h
      exact hshr x ((Option.some.inj he) ▸ hs)

theorem shrinkResult_no_fix {T U : Type} (shrT : T → List T) (shrU : U → List U)
    (hT : ∀ x, x ∉ shrT x) (hU : ∀ x, x ∉ shrU x) (v : Except U T) :
    v ∉ Lz.Lazy.toList (Sh.shrinkResult shrT shrU v) := by
  cases v with
  | ok x =>
    rw [(shrinkResult_toList shrT shrU).1 x]
    intro hmem
    obtain ⟨s, hs, he⟩ := List.mem_map.mp hmem
    exact hT x ((by injection he : s = x) ▸ hs)
  | error x =>
    rw [(shrinkResult_toList shrT shrU).2 x]
    intro hmem
    obtain ⟨s, hs, he⟩ := List.mem_map.mp hmem
    exact hU x ((by injection he : s = x) ▸ hs)

theorem shrinkEither_no_fix {T U : Type} (shrT : T → List T) (shrU : U → List U)
    (hT : ∀ x, x ∉ shrT x) (hU : ∀ x, x ∉ shrU x) (v : T ⊕ U) :
    v ∉ Lz.Lazy.toList (Sh.shrinkEither shrT shrU v) := by
  cases v with
  | inl x =>
    rw [(shrinkEither_toList shrT shrU).1 x]
    intro hmem
    obtain ⟨s, hs, he⟩ := List.mem_map.mp hmem
    exact hT x ((by injection he : s = x) ▸ hs)
  | inr x =>
    rw [(shrinkEither_toList shrT shrU).2 x]
    intro hmem
    obtain ⟨s, hs, he⟩ := List.mem_map.mp hmem
    exact hU x ((by injection he : s = x) ▸ hs)

theorem shrinkBox_no_fix {T : Type} (shr : T → List T)
    (hshr : ∀ x, x ∉ shr x) (v : Sh.Box T) :
    v ∉ Lz.Lazy.toList (Sh.shrinkBox shr v) := by
  rw [shrinkBox_toList]
  intro hmem
  obtain ⟨s, hs, he⟩ := List.mem_map.mp hmem
  exact hshr v.val ((congrArg Sh.Box.val he) ▸ hs)

theorem shrinkString_no_fix (s : String) :
    s ∉ Lz.Lazy.toList (Sh.shrinkString s) := by
  rw [shrinkString_toList]
  intro hmem
  obtain ⟨l, hl, he⟩ := List.mem_map.mp hmem
  have hd : l = s.data := congrArg String.data he
  rw [hd] at hl
  exact shrinkList_no_fix (fun _ => []) (by intro x; simp) s.data hl

/-- C7: no `Shrink` instance ever yields its argument among the candidates.
The atomic instances (`()`, `bool`, `char`, `float`, `i8`, `int`) use the
default empty stream; `u8`/`uint` use `shrink_uint`; tuples of arity 2-6,
`Option`, `Result`, `Either`, owned boxes, strings, sequences and hash maps
are compositional, assuming the element shrinkers themselves have no fixed
point.  A hash map is identified with its lookup function built from its
(nodup-keyed) pair snapshot. -/
theorem shrink_no_fixed_point {A B C D E F K V : Type} [DecidableEq K]
    [Inhabited A] [Inhabited K] [Inhabited V]
    (shrA : A → List A) (shrB : B → List B) (shrC : C → List C)
    (shrD : D → List D) (shrE : E → List E) (shrF : F → List F)
    (shrK : K → List K) (shrV : V → List V)
    (hA : ∀ a, a ∉ shrA a) (hB : ∀ b, b ∉ shrB b) (hC : ∀ c, c ∉ shrC c)
    (hD : ∀ d, d ∉ shrD d) (hE : ∀ e, e ∉ shrE e) (hF : ∀ f, f ∉ shrF f)
    (hK : ∀ k, k ∉ shrK k) (hV : ∀ v, v ∉ shrV v) :
    (∀ v : A, v ∉ Lz.Lazy.toList (Sh.defaultShrink v)) ∧
    (∀ n : Nat, n ∉ Lz.Lazy.toList (Sh.shrinkUintL n)) ∧
    (∀ v : A × B, v ∉ Lz.Lazy.toList (Sh.shrinkPair shrA shrB v)) ∧
    (∀ v : A × B × C, v ∉ Lz.Lazy.toList (Sh.shrinkTriple shrA shrB shrC v)) ∧
    (∀ v : A × B × C × D,
      v ∉ Lz.Lazy.toList (Sh.shrinkQuad shrA shrB shrC shrD v)) ∧
    (∀ v : A × B × C × D × E,
      v ∉ Lz.Lazy.toList (Sh.shrinkQuint shrA shrB shrC shrD shrE v)) ∧
    (∀ v : A × B × C × D × E × F,
      v ∉ Lz.Lazy.toList (Sh.shrinkSext shrA shrB shrC shrD shrE shrF v)) ∧
    (∀ v : Option A, v ∉ Lz.Lazy.toList (Sh.shrinkOption shrA v)) ∧
    (∀ v : Except B A, v ∉ Lz.Lazy.toList (Sh.shrinkResult shrA shrB v)) ∧
    (∀ v : A ⊕ B, v ∉ Lz.Lazy.toList (Sh.shrinkEither shrA shrB v)) ∧
    (∀ v : Sh.Box A, v ∉ Lz.Lazy.toList (Sh.shrinkBox shrA v)) ∧
    (∀ s : String, s ∉ Lz.Lazy.toList (Sh.shrinkString s)) ∧
    (∀ v : List A, v ∉ Lz.Lazy.toList (Sh.shrinkList shrA v)) ∧
    (∀ pairs : List (K × V), (pairs.map Prod.fst).Nodup →
      Sh.collectMap pairs ∉ Lz.Lazy.toList (Sh.shrinkHashMap shrK shrV pairs)) :=
  ⟨fun v => by simp [Sh.defaultShrink, Lz.Lazy.new, Lz.Lazy.toList_empty],
    fun n => by rw [Sh.shrinkUintL, Lz.Lazy.toList_new_from]; exact shrink_uint_no_fix n,
    shrinkPair_no_fix shrA shrB hA hB,
    shrinkTriple_no_fix shrA shrB shrC hA hB hC,
    shrinkQuad_no_fix shrA shrB shrC shrD hA hB hC hD,
    shrinkQuint_no_fix shrA shrB shrC shrD shrE hA hB hC hD hE,
    shrinkSext_no_fix shrA shrB shrC shrD shrE shrF hA hB hC hD hE hF,
    shrinkOption_no_fix shrA hA,
    shrinkResult_no_fix shrA shrB hA hB,
    shrinkEither_no_fix shrA shrB hA hB,
    shrinkBox_no_fix shrA hA,
    shrinkString_no_fix,
    shrinkList_no_fix shrA hA,
    fun pairs hnd => shrinkHashMap_no_fix shrK shrV hK hV pairs hnd⟩

/-- C7 witness: the conjunction instantiated with the uint shrinker on `Nat`
components and checked at concrete values. -/
theorem shrink_no_fixed_point_w :
    (7 : Nat) ∉ Lz.Lazy.toList (Sh.shrinkUintL 7) ∧
    ((5, 6) : Nat × Nat) ∉ Lz.Lazy.toList
      (Sh.shrinkPair Sh.shrink_uint Sh.shrink_uint (5, 6)) ∧
    ([5, 6] : List Nat) ∉ Lz.Lazy.toList (Sh.shrinkList Sh.shrink_uint [5, 6]) ∧
    Sh.collectMap [((1 : Nat), (2 : Nat))] ∉ Lz.Lazy.toList
      (Sh.shrinkHashMap Sh.shrink_uint Sh.shrink_uint [(1, 2)]) := by
  have hs : ∀ a : Nat, a ∉ Sh.shrink_uint a := shrink_uint_no_fix
  have h := shrink_no_fixed_point Sh.shrink_uint Sh.shrink_uint Sh.shrink_uint
    Sh.shrink_uint Sh.shrink_uint Sh.shrink_uint Sh.shrink_uint Sh.shrink_uint
    hs hs hs hs hs hs hs hs
    (A := Nat) (B := Nat) (C := Nat) (D := Nat) (E := Nat) (F := Nat)
    (K := Nat) (V := Nat)
  exact ⟨h.2.1 7, h.2.2.1 (5, 6), h.2.2.2.2.2.2.2.2.2.2.2.2.1 [5, 6],
    h.2.2.2.2.2.2.2.2.2.2.2.2.2 [(1, 2)] (by simp)⟩
